import Mathlib

/-!
Verification of the tagform-backend service layer (a form-builder CRUD backend).

The JavaScript services (`formService.js`, `workspaceService.js`) and the HTTP
controllers are shallowly embedded below: the datastore is an explicit record
of row lists, every service call is a pure function from a state (plus inputs)
to a result and a next state, and the string manipulation of `_createSlug` is
reproduced character by character.  Machine integers do not overflow in any of
the modelled code paths, so numbers are `Nat`/`Int`.
-/

namespace Tagform

/-! ## Character classes of the regexes used in `formService._createSlug`

`_createSlug` is
`str.toLowerCase().trim().replace(/[^\w\s-]/g, '').replace(/[\s_-]+/g, '-').replace(/^-+|-+$/g, '')`.
JavaScript `\w` is `[A-Za-z0-9_]`; `\s` is whitespace (modelled here by the
common whitespace code points; `String.prototype.trim` removes the same class).
`toLowerCase` is modelled on the ASCII range, which is the range that survives
the `\w` filter. -/

def isWordChar (c : Char) : Bool :=
  ('a' ≤ c && c ≤ 'z') || ('A' ≤ c && c ≤ 'Z') || ('0' ≤ c && c ≤ '9') || c = '_'

def isSpaceChar (c : Char) : Bool :=
  c = ' ' || c = '\t' || c = '\n' || c = '\r' || c = '\x0b' || c = '\x0c' || c = ' '

/-- The class of the run-collapsing regex `[\s_-]`. -/
def isSepChar (c : Char) : Bool := isSpaceChar c || c = '_' || c = '-'

/-- The class kept by the stripping regex replace (complement of `[^\w\s-]`). -/
def keepChar (c : Char) : Bool := isWordChar c || isSpaceChar c || c = '-'

/-- The ASCII case-folding table of `String.prototype.toLowerCase`. -/
def lowerPairs : List (Char × Char) :=
  [('A', 'a'), ('B', 'b'), ('C', 'c'), ('D', 'd'), ('E', 'e'), ('F', 'f'),
   ('G', 'g'), ('H', 'h'), ('I', 'i'), ('J', 'j'), ('K', 'k'), ('L', 'l'),
   ('M', 'm'), ('N', 'n'), ('O', 'o'), ('P', 'p'), ('Q', 'q'), ('R', 'r'),
   ('S', 's'), ('T', 't'), ('U', 'u'), ('V', 'v'), ('W', 'w'), ('X', 'x'),
   ('Y', 'y'), ('Z', 'z')]

/-- ASCII case folding, the fragment of `String.prototype.toLowerCase` that is
relevant after the `\w` filter. -/
def lowerChar (c : Char) : Char :=
  match lowerPairs.find? (fun p => p.1 == c) with
  | some p => p.2
  | none => c

/-- Drop the characters matching `p` at both ends of the list
(`trim` for the whitespace class, the `/^-+|-+$/g` replace for `(· = '-')`). -/
def trimBoth (p : Char → Bool) (l : List Char) : List Char :=
  ((l.dropWhile p).reverse.dropWhile p).reverse

/-- The global replace `/[\s_-]+/g → '-'`: every maximal run of separator
characters becomes a single hyphen.  The flag records whether the scanner is
inside a run whose hyphen has already been emitted. -/
def collapseSeps : Bool → List Char → List Char
  | _, [] => []
  | true, c :: cs =>
    if isSepChar c then collapseSeps true cs else c :: collapseSeps false cs
  | false, c :: cs =>
    if isSepChar c then '-' :: collapseSeps true cs else c :: collapseSeps false cs

/-- `formService._createSlug` on the character list of the input string. -/
def slugCore (l : List Char) : List Char :=
  trimBoth (· = '-')
    (collapseSeps false
      ((trimBoth isSpaceChar (l.map lowerChar)).filter keepChar))

/-- `formService._createSlug`. -/
def createSlug (s : String) : String := ⟨slugCore s.data⟩

example : createSlug "Q1 Survey!!" = "q1-survey" := by decide
example : createSlug "a_b" = "a-b" := by decide
example : createSlug "a--b" = "a-b" := by decide
example : createSlug "  Feedback  " = "feedback" := by decide

/-! ## Decimal rendering of the slug collision counter

`createForm` builds collision candidates with the template literal
`` `${base}-${counter}` ``, i.e. the decimal rendering of the counter. -/

def digitChar : Nat → Char
  | 0 => '0' | 1 => '1' | 2 => '2' | 3 => '3' | 4 => '4'
  | 5 => '5' | 6 => '6' | 7 => '7' | 8 => '8' | 9 => '9'
  | _ => '*'

def digitVal : Char → Nat
  | '0' => 0 | '1' => 1 | '2' => 2 | '3' => 3 | '4' => 4
  | '5' => 5 | '6' => 6 | '7' => 7 | '8' => 8 | '9' => 9
  | _ => 10

def natToDecAux : Nat → Nat → List Char
  | 0, _ => []
  | fuel + 1, n =>
    if n < 10 then [digitChar n]
    else natToDecAux fuel (n / 10) ++ [digitChar (n % 10)]

def natToDec (n : Nat) : List Char := natToDecAux (n + 1) n

theorem natToDecAux_fuel_irrel :
    ∀ (n fuel1 fuel2 : Nat), n < fuel1 → n < fuel2 →
      natToDecAux fuel1 n = natToDecAux fuel2 n := by
  intro n
  induction n using Nat.strong_induction_on with
  | _ n ih =>
    intro fuel1 fuel2 h1 h2
    cases fuel1 with
    | zero => omega
    | succ f1 =>
      cases fuel2 with
      | zero => omega
      | succ f2 =>
        by_cases hn : n < 10
        · simp [natToDecAux, hn]
        · have hdiv : n / 10 < n := Nat.div_lt_self (by omega) (by omega)
          simp only [natToDecAux, hn, if_false]
          rw [ih (n / 10) hdiv f1 f2 (by omega) (by omega)]

theorem natToDec_unfold (n : Nat) :
    natToDec n = if n < 10 then [digitChar n]
      else natToDec (n / 10) ++ [digitChar (n % 10)] := by
  show natToDecAux (n + 1) n = _
  cases hn : decide (n < 10) with
  | true =>
    have hn' : n < 10 := of_decide_eq_true hn
    simp [natToDecAux, hn']
  | false =>
    have hn' : ¬ n < 10 := of_decide_eq_false hn
    have hdiv : n / 10 < n := Nat.div_lt_self (by omega) (by omega)
    simp only [natToDecAux, hn', if_false]
    rw [natToDecAux_fuel_irrel (n / 10) n (n / 10 + 1) (by omega) (by omega)]
    rfl

/-- Decimal parse, the proof-side inverse of `natToDec`. -/
def decParse (l : List Char) : Nat := l.foldl (fun a c => 10 * a + digitVal c) 0

theorem digitVal_digitChar {d : Nat} (h : d < 10) : digitVal (digitChar d) = d := by
  interval_cases d <;> rfl

theorem decParse_append_digit (l : List Char) (c : Char) :
    decParse (l ++ [c]) = 10 * decParse l + digitVal c := by
  simp [decParse, List.foldl_append]

theorem decParse_natToDec (n : Nat) : decParse (natToDec n) = n := by
  induction n using Nat.strong_induction_on with
  | _ n ih =>
    by_cases h : n < 10
    · rw [natToDec_unfold]
      simp [h, decParse, digitVal_digitChar h]
    · rw [natToDec_unfold]
      simp only [h, if_false]
      rw [decParse_append_digit, ih (n / 10) (Nat.div_lt_self (by omega) (by omega)),
        digitVal_digitChar (Nat.mod_lt _ (by omega))]
      omega

theorem natToDec_injective : Function.Injective natToDec := by
  intro a b h
  have := congrArg decParse h
  rwa [decParse_natToDec, decParse_natToDec] at this

theorem natToDec_ne_nil (n : Nat) : natToDec n ≠ [] := by
  rw [natToDec_unfold]
  by_cases h : n < 10 <;> simp [h]

/-! ## Normal form of `_createSlug` outputs

`_createSlug` is idempotent because its output consists of lowercase word
characters other than underscore, separated by isolated hyphens with no hyphen
at either end; on such strings every stage of the pipeline is the identity. -/

theorem lowerChar_snd_fixed : ∀ q ∈ lowerPairs, lowerChar q.2 = q.2 := by decide

theorem lowerChar_idem (c : Char) : lowerChar (lowerChar c) = lowerChar c := by
  cases hf : lowerPairs.find? (fun p => p.1 == c) with
  | none =>
    have h1 : lowerChar c = c := by simp [lowerChar, hf]
    rw [h1]
    exact h1
  | some q =>
    have h1 : lowerChar c = q.2 := by simp [lowerChar, hf]
    rw [h1]
    exact lowerChar_snd_fixed q (List.mem_of_find?_eq_some hf)

/-- Adjacent output characters are never both hyphens. -/
def Rdash (a b : Char) : Prop := a ≠ '-' ∨ b ≠ '-'

/-- Characters that can occur in a `_createSlug` output. -/
def SlugChar (c : Char) : Prop :=
  c = '-' ∨ (isWordChar c = true ∧ c ≠ '_' ∧ c ≠ '-' ∧ lowerChar c = c)

theorem word_not_space {c : Char} (h : isWordChar c = true) :
    isSpaceChar c = false := by
  cases hs : isSpaceChar c with
  | false => rfl
  | true =>
    exfalso
    simp only [isSpaceChar, Bool.or_eq_true, decide_eq_true_eq] at hs
    rcases hs with ((((((h1 | h1) | h1) | h1) | h1) | h1) | h1) <;>
      rw [h1] at h <;> exact absurd h (by decide)

theorem slugChar_not_sep {c : Char} (h : SlugChar c) (hd : c ≠ '-') :
    isSepChar c = false := by
  rcases h with rfl | ⟨hw, hu, _, _⟩
  · exact absurd rfl hd
  · simp only [isSepChar, Bool.or_eq_false_iff, decide_eq_false_iff_not]
    exact ⟨⟨word_not_space hw, hu⟩, hd⟩

theorem slugChar_keep {c : Char} (h : SlugChar c) : keepChar c = true := by
  rcases h with rfl | ⟨hw, _, _, _⟩
  · decide
  · simp [keepChar, hw]

theorem slugChar_not_space {c : Char} (h : SlugChar c) : isSpaceChar c = false := by
  rcases h with rfl | ⟨hw, _, _, _⟩
  · decide
  · exact word_not_space hw

theorem slugChar_lower_fixed {c : Char} (h : SlugChar c) : lowerChar c = c := by
  rcases h with rfl | ⟨_, _, _, hl⟩
  · decide
  · exact hl

theorem mem_collapseSeps {c : Char} :
    ∀ {b : Bool} {l : List Char}, c ∈ collapseSeps b l →
      c = '-' ∨ (c ∈ l ∧ isSepChar c = false) := by
  intro b l
  induction l generalizing b with
  | nil => intro h; cases b <;> simp [collapseSeps] at h
  | cons d ds ih =>
    intro h
    by_cases hd : isSepChar d = true
    · cases b with
      | true =>
        rw [show collapseSeps true (d :: ds) = collapseSeps true ds from by
          simp [collapseSeps, hd]] at h
        rcases ih h with h' | ⟨hmem, hns⟩
        · exact Or.inl h'
        · exact Or.inr ⟨List.mem_cons_of_mem _ hmem, hns⟩
      | false =>
        rw [show collapseSeps false (d :: ds) = '-' :: collapseSeps true ds from by
          simp [collapseSeps, hd]] at h
        rcases List.mem_cons.mp h with rfl | h'
        · exact Or.inl rfl
        · rcases ih h' with h'' | ⟨hmem, hns⟩
          · exact Or.inl h''
          · exact Or.inr ⟨List.mem_cons_of_mem _ hmem, hns⟩
    · have hd' : isSepChar d = false := by simpa using hd
      have hrw : collapseSeps b (d :: ds) = d :: collapseSeps false ds := by
        cases b <;> simp [collapseSeps, hd']
      rw [hrw] at h
      rcases List.mem_cons.mp h with rfl | h'
      · exact Or.inr ⟨List.mem_cons_self _ _, hd'⟩
      · rcases ih h' with h'' | ⟨hmem, hns⟩
        · exact Or.inl h''
        · exact Or.inr ⟨List.mem_cons_of_mem _ hmem, hns⟩

theorem head?_collapseSeps_true {c : Char} :
    ∀ {l : List Char}, (collapseSeps true l).head? = some c →
      isSepChar c = false := by
  intro l
  induction l with
  | nil => intro h; simp [collapseSeps] at h
  | cons d ds ih =>
    intro h
    by_cases hd : isSepChar d = true
    · rw [show collapseSeps true (d :: ds) = collapseSeps true ds from by
        simp [collapseSeps, hd]] at h
      exact ih h
    · have hd' : isSepChar d = false := by simpa using hd
      rw [show collapseSeps true (d :: ds) = d :: collapseSeps false ds from by
        simp [collapseSeps, hd']] at h
      simp only [List.head?_cons, Option.some.injEq] at h
      exact h ▸ hd'

theorem chain'_collapseSeps :
    ∀ (b : Bool) (l : List Char), List.Chain' Rdash (collapseSeps b l) := by
  intro b l
  induction l generalizing b with
  | nil => cases b <;> simp [collapseSeps]
  | cons d ds ih =>
    by_cases hd : isSepChar d = true
    · cases b with
      | true =>
        rw [show collapseSeps true (d :: ds) = collapseSeps true ds from by
          simp [collapseSeps, hd]]
        exact ih true
      | false =>
        rw [show collapseSeps false (d :: ds) = '-' :: collapseSeps true ds from by
          simp [collapseSeps, hd]]
        refine List.chain'_cons'.mpr ⟨?_, ih true⟩
        intro y hy
        have hns := head?_collapseSeps_true hy
        right
        intro hy'
        rw [hy'] at hns
        simp [isSepChar] at hns
    · have hd' : isSepChar d = false := by simpa using hd
      have hrw : collapseSeps b (d :: ds) = d :: collapseSeps false ds := by
        cases b <;> simp [collapseSeps, hd']
      rw [hrw]
      refine List.chain'_cons'.mpr ⟨?_, ih false⟩
      intro y _
      left
      intro hcd
      rw [hcd] at hd'
      simp [isSepChar] at hd'

theorem head?_dropWhile_false {p : Char → Bool} {c : Char} :
    ∀ {l : List Char}, (l.dropWhile p).head? = some c → p c = false := by
  intro l
  induction l with
  | nil => intro h; simp [List.dropWhile] at h
  | cons d ds ih =>
    intro h
    by_cases hd : p d = true
    · rw [List.dropWhile_cons_of_pos hd] at h
      exact ih h
    · have hd' : p d = false := by
        cases hp : p d
        · rfl
        · exact absurd hp hd
      rw [List.dropWhile_cons_of_neg (by simp [hd'])] at h
      simp only [List.head?_cons, Option.some.injEq] at h
      exact h ▸ hd'

theorem dropWhile_eq_self_of_all {p : Char → Bool} {l : List Char}
    (h : ∀ c ∈ l, p c = false) : l.dropWhile p = l := by
  cases l with
  | nil => rfl
  | cons d ds =>
    exact List.dropWhile_cons_of_neg (by simp [h d (List.mem_cons_self d ds)])

theorem mem_trimBoth {p : Char → Bool} {c : Char} {l : List Char}
    (h : c ∈ trimBoth p l) : c ∈ l := by
  unfold trimBoth at h
  rw [List.mem_reverse] at h
  have h1 := List.dropWhile_sublist (l := (l.dropWhile p).reverse) (p := p)
  have h2 := h1.mem h
  rw [List.mem_reverse] at h2
  exact (List.dropWhile_sublist (l := l) (p := p)).mem h2

theorem trimBoth_eq_self_of_all {p : Char → Bool} {l : List Char}
    (h : ∀ c ∈ l, p c = false) : trimBoth p l = l := by
  unfold trimBoth
  rw [dropWhile_eq_self_of_all h, dropWhile_eq_self_of_all
    (by intro c hc; exact h c (List.mem_reverse.mp hc)), List.reverse_reverse]

theorem chain'_dropWhile {R : Char → Char → Prop} {p : Char → Bool}
    {l : List Char} (h : List.Chain' R l) : List.Chain' R (l.dropWhile p) := by
  induction l with
  | nil => simpa using h
  | cons d ds ih =>
    by_cases hd : p d = true
    · rw [List.dropWhile_cons_of_pos hd]
      exact ih h.tail
    · rwa [List.dropWhile_cons_of_neg (by simpa using hd)]

theorem chain'_trimBoth {p : Char → Bool} {l : List Char}
    (h : List.Chain' Rdash l) : List.Chain' Rdash (trimBoth p l) := by
  unfold trimBoth
  have hs : ∀ {m : List Char}, List.Chain' Rdash m → List.Chain' Rdash m.reverse := by
    intro m hm
    rw [List.chain'_reverse]
    exact hm.imp (fun a b hab => hab.symm)
  exact hs (chain'_dropWhile (hs (chain'_dropWhile h)))

theorem dropWhile_eq_self_of_head {p : Char → Bool} {l : List Char}
    (h : ∀ c, l.head? = some c → p c = false) : l.dropWhile p = l := by
  cases l with
  | nil => rfl
  | cons d ds =>
    exact List.dropWhile_cons_of_neg (by simp [h d rfl])

theorem head?_trimBoth {p : Char → Bool} {c : Char} {l : List Char}
    (h : (trimBoth p l).head? = some c) : p c = false := by
  unfold trimBoth at h
  obtain ⟨w, hw⟩ := List.dropWhile_suffix (l := (l.dropWhile p).reverse) (p := p)
  have hx : ((l.dropWhile p).reverse.dropWhile p).reverse ++ w.reverse
      = l.dropWhile p := by
    have h2 := congrArg List.reverse hw
    rw [List.reverse_append, List.reverse_reverse] at h2
    exact h2
  have hne : ((l.dropWhile p).reverse.dropWhile p).reverse ≠ [] := by
    intro hnil
    rw [hnil] at h
    simp at h
  have hhx : (l.dropWhile p).head? = some c := by
    rw [← hx, List.head?_append_of_ne_nil _ hne]
    exact h
  exact head?_dropWhile_false hhx

theorem getLast?_trimBoth {p : Char → Bool} {c : Char} {l : List Char}
    (h : (trimBoth p l).getLast? = some c) : p c = false := by
  unfold trimBoth at h
  rw [List.getLast?_reverse] at h
  exact head?_dropWhile_false h

theorem collapseSeps_fixed :
    ∀ {l : List Char}, (∀ c ∈ l, isSepChar c = true → c = '-') →
      List.Chain' Rdash l → collapseSeps false l = l := by
  intro l
  induction l with
  | nil => intro _ _; rfl
  | cons d ds ih =>
    intro hall hch
    have htail : collapseSeps false ds = ds :=
      ih (fun c hc => hall c (List.mem_cons_of_mem _ hc)) hch.tail
    by_cases hd : isSepChar d = true
    · have hdd : d = '-' := hall d (List.mem_cons_self d ds) hd
      subst hdd
      rw [show collapseSeps false ('-' :: ds) = '-' :: collapseSeps true ds from by
        simp [collapseSeps, hd]]
      congr 1
      cases ds with
      | nil => rfl
      | cons e es =>
        have he : e ≠ '-' := by
          rcases (List.chain'_cons.mp hch).1 with h1 | h1
          · exact absurd rfl h1
          · exact h1
        have hes : isSepChar e = false := by
          cases hsp : isSepChar e
          · rfl
          · exact absurd (hall e (List.mem_cons_of_mem _ (List.mem_cons_self e es)) hsp) he
        rw [show collapseSeps true (e :: es) = e :: collapseSeps false es from by
          simp [collapseSeps, hes]]
        rw [show collapseSeps false (e :: es) = e :: collapseSeps false es from by
          simp [collapseSeps, hes]] at htail
        exact htail
    · have hd' : isSepChar d = false := by simpa using hd
      rw [show collapseSeps false (d :: ds) = d :: collapseSeps false ds from by
        simp [collapseSeps, hd']]
      rw [htail]

theorem slugCore_mem {c : Char} {l : List Char} (h : c ∈ slugCore l) :
    SlugChar c := by
  unfold slugCore at h
  have h1 := mem_trimBoth h
  rcases mem_collapseSeps h1 with rfl | ⟨hmem, hns⟩
  · exact Or.inl rfl
  · have h2 := List.mem_filter.mp hmem
    have h3 := mem_trimBoth h2.1
    obtain ⟨c0, _, rfl⟩ := List.mem_map.mp h3
    have hkeep : keepChar (lowerChar c0) = true := h2.2
    simp only [keepChar, Bool.or_eq_true] at hkeep
    have hnsep := hns
    simp only [isSepChar, Bool.or_eq_false_iff, decide_eq_false_iff_not] at hnsep
    right
    refine ⟨?_, hnsep.1.2, hnsep.2, lowerChar_idem c0⟩
    rcases hkeep with (hw | hsp) | hdash
    · exact hw
    · rw [hnsep.1.1] at hsp
      exact absurd hsp (by simp)
    · simp only [decide_eq_true_eq] at hdash
      exact absurd hdash hnsep.2

theorem slugCore_chain (l : List Char) : List.Chain' Rdash (slugCore l) :=
  chain'_trimBoth (chain'_collapseSeps false _)

theorem slugCore_head {c : Char} {l : List Char}
    (h : (slugCore l).head? = some c) : c ≠ '-' := by
  have := head?_trimBoth h
  simpa using this

theorem slugCore_last {c : Char} {l : List Char}
    (h : (slugCore l).getLast? = some c) : c ≠ '-' := by
  have := getLast?_trimBoth h
  simpa using this

theorem slugCore_fixed {m : List Char}
    (hA : ∀ c ∈ m, SlugChar c)
    (hB : List.Chain' Rdash m)
    (hH : ∀ c, m.head? = some c → c ≠ '-')
    (hL : ∀ c, m.getLast? = some c → c ≠ '-') :
    slugCore m = m := by
  unfold slugCore
  have e1 : m.map lowerChar = m := by
    conv_rhs => rw [← List.map_id m]
    exact List.map_congr_left (fun c hc => slugChar_lower_fixed (hA c hc))
  rw [e1]
  have e2 : trimBoth isSpaceChar m = m :=
    trimBoth_eq_self_of_all (fun c hc => slugChar_not_space (hA c hc))
  rw [e2]
  have e3 : m.filter keepChar = m :=
    List.filter_eq_self.mpr (fun c hc => slugChar_keep (hA c hc))
  rw [e3]
  have e4 : collapseSeps false m = m := by
    refine collapseSeps_fixed (fun c hc hsep => ?_) hB
    by_contra hne
    rw [slugChar_not_sep (hA c hc) hne] at hsep
    exact absurd hsep (by simp)
  rw [e4]
  unfold trimBoth
  have e5 : m.dropWhile (fun c => decide (c = '-')) = m := by
    refine dropWhile_eq_self_of_head (fun c hc => ?_)
    simpa using hH c hc
  rw [e5]
  have e6 : m.reverse.dropWhile (fun c => decide (c = '-')) = m.reverse := by
    refine dropWhile_eq_self_of_head (fun c hc => ?_)
    rw [List.head?_reverse] at hc
    simpa using hL c hc
  rw [e6, List.reverse_reverse]

theorem slugCore_idem (l : List Char) : slugCore (slugCore l) = slugCore l :=
  slugCore_fixed (fun _ hc => slugCore_mem hc) (slugCore_chain l)
    (fun _ hc => slugCore_head hc) (fun _ hc => slugCore_last hc)

theorem createSlug_idem (s : String) :
    createSlug (createSlug s) = createSlug s :=
  congrArg (fun l => (⟨l⟩ : String)) (slugCore_idem s.data)

/-! ## The slug function described by the specification text

The spec describes `slugify` as: lower-case, strip characters outside
`[a-z0-9\s-]`, collapse whitespace/underscore runs to a single hyphen, trim
leading/trailing hyphens.  `describedSlug` renders that text literally.
`describedSlugAmended` renders the amended text, whose strip class keeps
underscores (`[a-z0-9_\s-]`) and whose collapse class also includes hyphens. -/

def collapseRuns (sep : Char → Bool) : Bool → List Char → List Char
  | _, [] => []
  | true, c :: cs =>
    if sep c then collapseRuns sep true cs else c :: collapseRuns sep false cs
  | false, c :: cs =>
    if sep c then '-' :: collapseRuns sep true cs else c :: collapseRuns sep false cs

/-- The spec sentence's strip class `[a-z0-9\s-]`. -/
def claimKeepChar (c : Char) : Bool :=
  ('a' ≤ c && c ≤ 'z') || ('0' ≤ c && c ≤ '9') || isSpaceChar c || c = '-'

/-- The spec sentence's collapse class: whitespace/underscore runs. -/
def claimCollapseChar (c : Char) : Bool := isSpaceChar c || c = '_'

/-- The slug function exactly as the specification sentence describes it. -/
def describedSlug (s : String) : String :=
  ⟨trimBoth (· = '-')
    (collapseRuns claimCollapseChar false
      ((s.data.map lowerChar).filter claimKeepChar))⟩

/-- The amended strip class `[a-z0-9_\s-]` (underscores kept). -/
def amendedKeepChar (c : Char) : Bool :=
  ('a' ≤ c && c ≤ 'z') || ('0' ≤ c && c ≤ '9') || c = '_' || isSpaceChar c || c = '-'

/-- The slug function as described by the amended sentence: lower-case, strip
characters outside `[a-z0-9_\s-]`, collapse runs of whitespace, underscores and
hyphens to a single hyphen, trim leading/trailing hyphens. -/
def describedSlugAmended (s : String) : String :=
  ⟨trimBoth (· = '-')
    (collapseRuns isSepChar false
      ((s.data.map lowerChar).filter amendedKeepChar))⟩

theorem collapseRuns_isSep :
    ∀ (b : Bool) (l : List Char), collapseRuns isSepChar b l = collapseSeps b l := by
  intro b l
  induction l generalizing b with
  | nil => cases b <;> rfl
  | cons d ds ih =>
    by_cases hd : isSepChar d = true <;>
      cases b <;> simp [collapseRuns, collapseSeps, hd, ih]

theorem lowerPairs_snd_not_upper :
    ∀ q ∈ lowerPairs, ('A' ≤ q.2 && q.2 ≤ 'Z') = false := by decide

theorem find?_lower_of_upper {c : Char} (h1 : 'A' ≤ c) (h2 : c ≤ 'Z') :
    lowerPairs.find? (fun p => p.1 == c) ≠ none := by
  have hl : 65 ≤ c.toNat := h1
  have hr : c.toNat ≤ 90 := h2
  have hc : c = Char.ofNat c.toNat := (Char.ofNat_toNat c).symm
  interval_cases h : c.toNat <;> subst hc <;> decide

theorem lowerChar_not_upper (c : Char) :
    ('A' ≤ lowerChar c && lowerChar c ≤ 'Z') = false := by
  cases hf : lowerPairs.find? (fun p => p.1 == c) with
  | none =>
    have h1 : lowerChar c = c := by simp [lowerChar, hf]
    rw [h1]
    cases hb : ('A' ≤ c && c ≤ 'Z') with
    | false => rfl
    | true =>
      simp only [Bool.and_eq_true, decide_eq_true_eq] at hb
      exact absurd hf (find?_lower_of_upper hb.1 hb.2)
  | some q =>
    have h1 : lowerChar c = q.2 := by simp [lowerChar, hf]
    rw [h1]
    exact lowerPairs_snd_not_upper q (List.mem_of_find?_eq_some hf)

theorem keep_eq_amended_on_lower (c : Char) :
    keepChar (lowerChar c) = amendedKeepChar (lowerChar c) := by
  have h := lowerChar_not_upper c
  refine Bool.eq_iff_iff.mpr ?_
  simp only [keepChar, amendedKeepChar, isWordChar, Bool.or_eq_true,
    Bool.and_eq_true, decide_eq_true_eq]
  constructor
  · rintro (((((hz | hu) | hd) | hw) | hs) | hh)
    · exact Or.inl (Or.inl (Or.inl (Or.inl hz)))
    · exfalso
      simp [hu.1, hu.2] at h
    · exact Or.inl (Or.inl (Or.inl (Or.inr hd)))
    · exact Or.inl (Or.inl (Or.inr hw))
    · exact Or.inl (Or.inr hs)
    · exact Or.inr hh
  · rintro ((((hz | hd) | hw) | hs) | hh)
    · exact Or.inl (Or.inl (Or.inl (Or.inl (Or.inl hz))))
    · exact Or.inl (Or.inl (Or.inl (Or.inr hd)))
    · exact Or.inl (Or.inl (Or.inr hw))
    · exact Or.inl (Or.inr hs)
    · exact Or.inr hh

theorem collapseSeps_true_allSep {b : List Char}
    (h : ∀ c ∈ b, isSepChar c = true) : collapseSeps true b = [] := by
  induction b with
  | nil => rfl
  | cons c cs ih =>
    rw [show collapseSeps true (c :: cs) = collapseSeps true cs from by
      simp [collapseSeps, h c (List.mem_cons_self c cs)]]
    exact ih (fun d hd => h d (List.mem_cons_of_mem _ hd))

theorem collapseSeps_true_append_allSep {a : List Char} {x : List Char}
    (h : ∀ c ∈ a, isSepChar c = true) :
    collapseSeps true (a ++ x) = collapseSeps true x := by
  induction a with
  | nil => rfl
  | cons c cs ih =>
    rw [List.cons_append,
      show collapseSeps true (c :: (cs ++ x)) = collapseSeps true (cs ++ x) from by
        simp [collapseSeps, h c (List.mem_cons_self c cs)]]
    exact ih (fun d hd => h d (List.mem_cons_of_mem _ hd))

theorem collapseSeps_false_append_allSep {a : List Char} {x : List Char}
    (h : ∀ c ∈ a, isSepChar c = true) (hne : a ≠ []) :
    collapseSeps false (a ++ x) = '-' :: collapseSeps true x := by
  cases a with
  | nil => exact absurd rfl hne
  | cons c cs =>
    rw [List.cons_append,
      show collapseSeps false (c :: (cs ++ x)) = '-' :: collapseSeps true (cs ++ x) from by
        simp [collapseSeps, h c (List.mem_cons_self c cs)]]
    rw [collapseSeps_true_append_allSep (fun d hd => h d (List.mem_cons_of_mem _ hd))]

theorem collapseSeps_append_allSep_cases {b : List Char}
    (h : ∀ c ∈ b, isSepChar c = true) :
    ∀ (x : List Char) (st : Bool),
      collapseSeps st (x ++ b) = collapseSeps st x ∨
      collapseSeps st (x ++ b) = collapseSeps st x ++ ['-'] := by
  intro x
  induction x with
  | nil =>
    intro st
    cases st with
    | true =>
      left
      rw [List.nil_append, collapseSeps_true_allSep h]
      rfl
    | false =>
      cases hb : b with
      | nil => left; rfl
      | cons c cs =>
        right
        rw [hb] at h
        rw [List.nil_append]
        rw [show collapseSeps false (c :: cs) = '-' :: collapseSeps true cs from by
            simp [collapseSeps, h c (List.mem_cons_self c cs)]]
        rw [collapseSeps_true_allSep
          (fun d hd => h d (List.mem_cons_of_mem _ hd))]
        rfl
  | cons c x' ih =>
    intro st
    by_cases hc : isSepChar c = true
    · cases st with
      | true =>
        rw [List.cons_append,
          show collapseSeps true (c :: (x' ++ b)) = collapseSeps true (x' ++ b) from by
            simp [collapseSeps, hc],
          show collapseSeps true (c :: x') = collapseSeps true x' from by
            simp [collapseSeps, hc]]
        exact ih true
      | false =>
        rw [List.cons_append,
          show collapseSeps false (c :: (x' ++ b)) = '-' :: collapseSeps true (x' ++ b) from by
            simp [collapseSeps, hc],
          show collapseSeps false (c :: x') = '-' :: collapseSeps true x' from by
            simp [collapseSeps, hc]]
        rcases ih true with h' | h'
        · left; rw [h']
        · right; rw [h', List.cons_append]
    · have hc' : isSepChar c = false := by simpa using hc
      have hrw : ∀ z, collapseSeps st (c :: z) = c :: collapseSeps false z := by
        intro z; cases st <;> simp [collapseSeps, hc']
      rw [List.cons_append, hrw, hrw]
      rcases ih false with h' | h'
      · left; rw [h']
      · right; rw [h', List.cons_append]

theorem trimH_append_dash (y : List Char) :
    trimBoth (· = '-') (y ++ ['-']) = trimBoth (· = '-') y := by
  unfold trimBoth
  rw [List.dropWhile_append]
  cases he : (y.dropWhile (fun c => decide (c = '-'))).isEmpty with
  | true =>
    simp only [if_true]
    have hy : y.dropWhile (fun c => decide (c = '-')) = [] := by
      simpa [List.isEmpty_iff] using he
    rw [hy]
    simp [List.dropWhile]
  | false =>
    simp only [Bool.false_eq_true, if_false]
    rw [List.reverse_append]
    simp only [List.reverse_cons, List.reverse_nil, List.nil_append,
      List.singleton_append]
    rw [show (('-' :: (y.dropWhile (fun c => decide (c = '-'))).reverse).dropWhile
        (fun c => decide (c = '-')))
        = ((y.dropWhile (fun c => decide (c = '-'))).reverse.dropWhile
        (fun c => decide (c = '-'))) from by simp [List.dropWhile]]

theorem trimH_eq_of_dropWhile_eq {l₁ l₂ : List Char}
    (h : l₁.dropWhile (fun c => decide (c = '-')) = l₂.dropWhile (fun c => decide (c = '-'))) :
    trimBoth (· = '-') l₁ = trimBoth (· = '-') l₂ := by
  unfold trimBoth
  rw [h]

theorem dropWhile_dash_cons_collapse (x : List Char) :
    ('-' :: collapseSeps true x).dropWhile (fun c => decide (c = '-'))
      = (collapseSeps false x).dropWhile (fun c => decide (c = '-')) := by
  cases x with
  | nil => simp [collapseSeps, List.dropWhile]
  | cons c x' =>
    by_cases hc : isSepChar c = true
    · rw [show collapseSeps true (c :: x') = collapseSeps true x' from by
          simp [collapseSeps, hc],
        show collapseSeps false (c :: x') = '-' :: collapseSeps true x' from by
          simp [collapseSeps, hc]]
    · have hc' : isSepChar c = false := by simpa using hc
      have hcd : c ≠ '-' := by
        intro hcd
        rw [hcd] at hc'
        simp [isSepChar] at hc'
      rw [show collapseSeps true (c :: x') = c :: collapseSeps false x' from by
          simp [collapseSeps, hc'],
        show collapseSeps false (c :: x') = c :: collapseSeps false x' from by
          simp [collapseSeps, hc']]
      rw [show (('-' :: c :: collapseSeps false x').dropWhile (fun c => decide (c = '-')))
          = ((c :: collapseSeps false x').dropWhile (fun c => decide (c = '-'))) from by
        simp [List.dropWhile]]

theorem trimH_collapse_prefix_allSep {a x : List Char}
    (h : ∀ c ∈ a, isSepChar c = true) :
    trimBoth (· = '-') (collapseSeps false (a ++ x))
      = trimBoth (· = '-') (collapseSeps false x) := by
  cases a with
  | nil => rfl
  | cons c cs =>
    rw [collapseSeps_false_append_allSep h (by simp)]
    exact trimH_eq_of_dropWhile_eq (dropWhile_dash_cons_collapse x)

theorem trimH_collapse_suffix_allSep {b x : List Char}
    (h : ∀ c ∈ b, isSepChar c = true) :
    trimBoth (· = '-') (collapseSeps false (x ++ b))
      = trimBoth (· = '-') (collapseSeps false x) := by
  rcases collapseSeps_append_allSep_cases h x false with h' | h'
  · rw [h']
  · rw [h', trimH_append_dash]

theorem space_keep {c : Char} (h : isSpaceChar c = true) : keepChar c = true := by
  simp [keepChar, h]

theorem space_sep {c : Char} (h : isSpaceChar c = true) : isSepChar c = true := by
  simp [isSepChar, h]

theorem collapse_trim_elim (m : List Char) :
    trimBoth (· = '-') (collapseSeps false ((trimBoth isSpaceChar m).filter keepChar))
      = trimBoth (· = '-') (collapseSeps false (m.filter keepChar)) := by
  have hsplit1 : m = m.takeWhile isSpaceChar ++ m.dropWhile isSpaceChar :=
    (List.takeWhile_append_dropWhile isSpaceChar m).symm
  set u := m.dropWhile isSpaceChar with hu
  have hsplit2 : u = trimBoth isSpaceChar m ++ (u.reverse.takeWhile isSpaceChar).reverse := by
    unfold trimBoth
    rw [← hu]
    have h2 : u.reverse = u.reverse.takeWhile isSpaceChar ++ u.reverse.dropWhile isSpaceChar :=
      (List.takeWhile_append_dropWhile isSpaceChar u.reverse).symm
    calc u = u.reverse.reverse := (List.reverse_reverse u).symm
      _ = (u.reverse.takeWhile isSpaceChar ++ u.reverse.dropWhile isSpaceChar).reverse := by
          rw [← h2]
      _ = (u.reverse.dropWhile isSpaceChar).reverse
            ++ (u.reverse.takeWhile isSpaceChar).reverse := by
          rw [List.reverse_append]
  have hallA : ∀ c ∈ m.takeWhile isSpaceChar, isSepChar c = true :=
    fun c hc => space_sep (List.mem_takeWhile_imp hc)
  have hallB : ∀ c ∈ (u.reverse.takeWhile isSpaceChar).reverse, isSepChar c = true :=
    fun c hc => space_sep (List.mem_takeWhile_imp (List.mem_reverse.mp hc))
  have hkeepA : (m.takeWhile isSpaceChar).filter keepChar = m.takeWhile isSpaceChar :=
    List.filter_eq_self.mpr
      (fun c hc => space_keep (List.mem_takeWhile_imp hc))
  have hkeepB : ((u.reverse.takeWhile isSpaceChar).reverse).filter keepChar
      = (u.reverse.takeWhile isSpaceChar).reverse :=
    List.filter_eq_self.mpr
      (fun c hc => space_keep (List.mem_takeWhile_imp (List.mem_reverse.mp hc)))
  conv_rhs => rw [hsplit1]
  rw [show u = trimBoth isSpaceChar m ++ (u.reverse.takeWhile isSpaceChar).reverse
    from hsplit2]
  rw [List.filter_append, List.filter_append, hkeepA, hkeepB]
  rw [← List.append_assoc]
  rw [show m.takeWhile isSpaceChar ++ (trimBoth isSpaceChar m).filter keepChar
      ++ (u.reverse.takeWhile isSpaceChar).reverse
    = m.takeWhile isSpaceChar ++ ((trimBoth isSpaceChar m).filter keepChar
      ++ (u.reverse.takeWhile isSpaceChar).reverse) from by rw [List.append_assoc]]
  rw [trimH_collapse_prefix_allSep hallA]
  rw [trimH_collapse_suffix_allSep hallB]

theorem createSlug_eq_describedSlugAmended (s : String) :
    createSlug s = describedSlugAmended s := by
  unfold createSlug describedSlugAmended slugCore
  refine congrArg (fun l => (⟨l⟩ : String)) ?_
  rw [collapseRuns_isSep]
  have hfil : (s.data.map lowerChar).filter amendedKeepChar
      = (s.data.map lowerChar).filter keepChar := by
    refine List.filter_congr (fun c hc => ?_)
    obtain ⟨c0, _, rfl⟩ := List.mem_map.mp hc
    exact (keep_eq_amended_on_lower c0).symm
  rw [hfil]
  exact collapse_trim_elim (s.data.map lowerChar)

/-! ## Data model

Rows of the tables touched by the services, mirroring the Supabase schema
(`workspaces.sql`, `submissions.sql` and the columns used by
`formService.js`).  Ids are uuid strings; timestamps are abstract `Nat`
instants supplied by the caller (the code reads the wall clock). -/

inductive SubStatus where
  | inProgress
  | completed
deriving DecidableEq, Repr

structure Form where
  id : String
  workspaceId : String
  name : String
  description : Option String
  isPrivate : Bool
  slug : String
deriving DecidableEq, Repr

structure Question where
  id : String
  formId : String
  qType : String
  text : String
  description : Option String
  isRequired : Bool
  maxChars : Option Nat
  order : Int
  parentId : Option String
deriving DecidableEq, Repr

structure Choice where
  id : String
  questionId : String
  text : String
  order : Int
deriving DecidableEq, Repr

structure SettingsRow where
  formId : String
  landingPageTitle : String
  landingPageDescription : String
  landingPageButtonText : String
  showProgressBar : Bool
  endingPageTitle : String
  endingPageDescription : String
  endingPageButtonText : String
deriving DecidableEq, Repr

structure Submission where
  id : String
  formId : String
  email : String
  status : SubStatus
  startedAt : Nat
  completedAt : Option Nat
  completionTime : Option Nat
  userAgent : Option String
  ipAddress : Option String
deriving DecidableEq, Repr

structure AnalyticsRow where
  formId : String
  totalSubmissions : Nat
  averageCompletionTime : Nat
  updatedAt : Nat
deriving DecidableEq, Repr

structure AppState where
  forms : List Form
  questions : List Question
  choices : List Choice
  settingsRows : List SettingsRow
  submissions : List Submission
  analytics : List AnalyticsRow
deriving DecidableEq, Repr

/-! ## `startSubmission` (formService.js lines 779-865) and its controller

The service first selects the submission rows for `(formId, email)` with
`.single()`: zero rows is the excused `PGRST116` error, one row is returned as
data, and two or more rows make `.single()` fail with a different code, which
the service rethrows as `Failed to check existing submission`. -/

def submissionMatches (s : AppState) (fid email : String) : List Submission :=
  s.submissions.filter (fun r => r.formId = fid ∧ r.email = email)

inductive StartResult where
  | conflict (id : String) (completedAt : Option Nat) (email : String)
  | row (sub : Submission)
  | failure (msg : String)
deriving DecidableEq, Repr

/-- `formService.startSubmission`.  On a completed existing row it returns the
`error: true` object carrying the row's id, `completed_at` and email (it does
not throw); on an in-progress row it returns that row unchanged; otherwise it
inserts a fresh `in_progress` row. -/
def startSubmission (s : AppState) (fid email : String) (newId : String)
    (now : Nat) (ua ip : Option String) : StartResult × AppState :=
  match submissionMatches s fid email with
  | [] =>
    let sub : Submission :=
      { id := newId, formId := fid, email := email, status := SubStatus.inProgress,
        startedAt := now, completedAt := none, completionTime := none,
        userAgent := ua, ipAddress := ip }
    (StartResult.row sub, { s with submissions := s.submissions ++ [sub] })
  | [existing] =>
    if existing.status = SubStatus.completed then
      (StartResult.conflict existing.id existing.completedAt existing.email, s)
    else
      (StartResult.row existing, s)
  | _ => (StartResult.failure "Failed to check existing submission", s)

/-- The controller's email check `/^[^\s@]+@[^\s@]+\.[^\s@]+$/`: exactly one
`@`, no whitespace, a nonempty local part, and a dot with nonempty neighbours
after the `@`. -/
def emailOk (e : String) : Bool :=
  match e.data.splitOn '@' with
  | [l, r] =>
    !l.isEmpty && !r.isEmpty
      && (l ++ r).all (fun c => !isSpaceChar c)
      && ((r.drop 1).dropLast).contains '.'
  | _ => false

structure HttpStart where
  status : Nat
  result : Option StartResult
  state : AppState
deriving DecidableEq, Repr

/-- `formController.startSubmission`: 400 on missing/invalid email, 409 only
for a thrown `Duplicate submission` error, 500 for other thrown errors, and
201 with the service's return value otherwise. -/
def controllerStartSubmission (s : AppState) (fid email : String)
    (newId : String) (now : Nat) (ua ip : Option String) : HttpStart :=
  if email = "" then ⟨400, none, s⟩
  else if emailOk email = false then ⟨400, none, s⟩
  else
    match startSubmission s fid email newId now ua ip with
    | (StartResult.failure msg, s') =>
      if msg = "Duplicate submission" then ⟨409, none, s'⟩ else ⟨500, none, s'⟩
    | (r, s') => ⟨201, some r, s'⟩

example : emailOk "ada@example.com" = true := by decide
example : emailOk "ada@example" = false := by decide
example : emailOk "ada example@x.y" = false := by decide

/-! ## `createForm` (formService.js lines 136-200) and `_validateUniqueSlug`

`_validateUniqueSlug` selects `(workspace_id, slug)` with `.single()`: zero
rows is the excused `PGRST116` (slug unique), one row means taken, two or more
rows make `.single()` fail with a different code, which is rethrown.  The
collision loop tries `base`, `base-1`, `base-2`, ... until a free slug is
found. -/

def formSlugMatches (forms : List Form) (ws slug : String) : Nat :=
  (forms.filter (fun f => f.workspaceId = ws ∧ f.slug = slug)).length

def validateUniqueSlug (forms : List Form) (ws slug : String) : Except String Bool :=
  match formSlugMatches forms ws slug with
  | 0 => Except.ok true
  | 1 => Except.ok false
  | _ => Except.error "single() matched multiple rows"

/-- The candidate tried at loop iteration `k`: the template literal of base
and counter joined by a hyphen for `k ≥ 1`, and the bare base first. -/
def candidateSlug (base : String) : Nat → String
  | 0 => base
  | k + 1 => base ++ "-" ++ ⟨natToDec (k + 1)⟩

/-- The collision loop of `createForm`, with explicit fuel (the loop in the
source terminates because only finitely many slugs are taken). -/
def findSlugCounter (forms : List Form) (ws base : String) :
    Nat → Nat → Except String (Option Nat)
  | 0, _ => Except.ok none
  | fuel + 1, k =>
    match validateUniqueSlug forms ws (candidateSlug base k) with
    | Except.error e => Except.error e
    | Except.ok true => Except.ok (some k)
    | Except.ok false => findSlugCounter forms ws base fuel (k + 1)

/-- `formService.createForm`: derive the base slug from the name, probe until
an unused candidate is found, insert the form, then insert the default
settings row. -/
def createForm (s : AppState) (ws : String) (name : String)
    (description : Option String) (isPrivate : Bool) (newFormId : String) :
    Except String (Form × AppState) :=
  let base := createSlug name
  match findSlugCounter s.forms ws base (s.forms.length + 1) 0 with
  | Except.error e => Except.error e
  | Except.ok none => Except.error "out of fuel"
  | Except.ok (some k) =>
    let form : Form :=
      { id := newFormId, workspaceId := ws, name := name,
        description := description, isPrivate := isPrivate,
        slug := candidateSlug base k }
    let settings : SettingsRow :=
      { formId := newFormId, landingPageTitle := name,
        landingPageDescription := description.getD "",
        landingPageButtonText := "Start", showProgressBar := true,
        endingPageTitle := "Thank You!",
        endingPageDescription := "Your response has been recorded.",
        endingPageButtonText := "Submit Another Response" }
    Except.ok (form,
      { s with forms := s.forms ++ [form],
               settingsRows := s.settingsRows ++ [settings] })

theorem candidateSlug_data (base : String) (k : Nat) :
    (candidateSlug base (k + 1)).data = base.data ++ '-' :: natToDec (k + 1) := by
  show (base ++ "-" ++ ⟨natToDec (k + 1)⟩).data = _
  rw [String.data_append, String.data_append, List.append_assoc]
  rfl

theorem candidateSlug_injective (base : String) :
    Function.Injective (candidateSlug base) := by
  intro i j h
  match i, j with
  | 0, 0 => rfl
  | 0, j + 1 =>
    exfalso
    have hd := congrArg String.data h
    rw [show candidateSlug base 0 = base from rfl, candidateSlug_data] at hd
    have hlen := congrArg List.length hd
    simp only [List.length_append, List.length_cons] at hlen
    omega
  | i + 1, 0 =>
    exfalso
    have hd := congrArg String.data h
    rw [show candidateSlug base 0 = base from rfl, candidateSlug_data] at hd
    have hlen := congrArg List.length hd
    simp only [List.length_append, List.length_cons] at hlen
    omega
  | i + 1, j + 1 =>
    have hd := congrArg String.data h
    rw [candidateSlug_data, candidateSlug_data] at hd
    have h2 := List.append_cancel_left hd
    have h3 : natToDec (i + 1) = natToDec (j + 1) := by
      injection h2
    have h4 := natToDec_injective h3
    omega

theorem formSlugMatches_pos_iff {forms : List Form} {ws slug : String} :
    0 < formSlugMatches forms ws slug ↔
      ∃ f ∈ forms, f.workspaceId = ws ∧ f.slug = slug := by
  unfold formSlugMatches
  rw [List.length_pos_iff_exists_mem]
  constructor
  · rintro ⟨f, hf⟩
    have hm := List.mem_filter.mp hf
    have hp := hm.2
    simp only [decide_eq_true_eq] at hp
    exact ⟨f, hm.1, hp⟩
  · rintro ⟨f, hf, h1, h2⟩
    exact ⟨f, List.mem_filter.mpr ⟨hf, by simp [h1, h2]⟩⟩

theorem exists_free_candidate (forms : List Form) (ws base : String) :
    ∃ k ≤ forms.length, formSlugMatches forms ws (candidateSlug base k) = 0 := by
  by_contra hno
  push_neg at hno
  have hocc : ∀ k ∈ Finset.range (forms.length + 1),
      candidateSlug base k ∈
        ((forms.filter (fun f => f.workspaceId = ws)).map (fun f => f.slug)) := by
    intro k hk
    have hk' : k ≤ forms.length := by
      have := Finset.mem_range.mp hk
      omega
    have hpos : 0 < formSlugMatches forms ws (candidateSlug base k) :=
      Nat.pos_of_ne_zero (hno k hk')
    obtain ⟨f, hf, h1, h2⟩ := formSlugMatches_pos_iff.mp hpos
    exact List.mem_map.mpr ⟨f, List.mem_filter.mpr ⟨hf, by simp [h1]⟩, h2⟩
  have hsub : (Finset.range (forms.length + 1)).image (candidateSlug base) ⊆
      ((forms.filter (fun f => f.workspaceId = ws)).map (fun f => f.slug)).toFinset := by
    intro x hx
    obtain ⟨k, hk, rfl⟩ := Finset.mem_image.mp hx
    exact List.mem_toFinset.mpr (hocc k hk)
  have hcard1 : ((Finset.range (forms.length + 1)).image (candidateSlug base)).card
      = forms.length + 1 := by
    rw [Finset.card_image_of_injective _ (candidateSlug_injective base),
      Finset.card_range]
  have hcard2 := Finset.card_le_card hsub
  have hcard3 := List.toFinset_card_le
    ((forms.filter (fun f => f.workspaceId = ws)).map (fun f => f.slug))
  have hlen : ((forms.filter (fun f => f.workspaceId = ws)).map (fun f => f.slug)).length
      ≤ forms.length := by
    rw [List.length_map]
    exact List.length_filter_le _ _
  omega

theorem findSlugCounter_spec {forms : List Form} {ws base : String}
    (hnd : ∀ slug, formSlugMatches forms ws slug ≤ 1) :
    ∀ (fuel k : Nat),
      (∃ j, k ≤ j ∧ j < k + fuel ∧
        formSlugMatches forms ws (candidateSlug base j) = 0) →
      ∃ m, findSlugCounter forms ws base fuel k = Except.ok (some m) ∧
        k ≤ m ∧ formSlugMatches forms ws (candidateSlug base m) = 0 ∧
        ∀ j, k ≤ j → j < m →
          formSlugMatches forms ws (candidateSlug base j) = 1 := by
  intro fuel
  induction fuel with
  | zero =>
    rintro k ⟨j, h1, h2, _⟩
    omega
  | succ fuel ih =>
    intro k hex
    cases hm : formSlugMatches forms ws (candidateSlug base k) with
    | zero =>
      refine ⟨k, ?_, le_refl k, hm, fun j hj1 hj2 => absurd hj1 (by omega)⟩
      simp [findSlugCounter, validateUniqueSlug, hm]
    | succ n =>
      have hn : n = 0 := by
        have := hnd (candidateSlug base k)
        omega
      subst hn
      have hex' : ∃ j, k + 1 ≤ j ∧ j < (k + 1) + fuel ∧
          formSlugMatches forms ws (candidateSlug base j) = 0 := by
        obtain ⟨j, hj1, hj2, hj3⟩ := hex
        refine ⟨j, ?_, by omega, hj3⟩
        rcases Nat.lt_or_ge k j with h | h
        · omega
        · have hjk : j = k := by omega
          rw [hjk, hm] at hj3
          exact absurd hj3 (by simp)
      obtain ⟨m, hfind, hm1, hm2, hm3⟩ := ih (k + 1) hex'
      refine ⟨m, ?_, by omega, hm2, ?_⟩
      · simp [findSlugCounter, validateUniqueSlug, hm, hfind]
      · intro j hj1 hj2
        by_cases hjk : j = k
        · rw [hjk]
          exact hm
        · exact hm3 j (by omega) hj2

def emptyAppState : AppState := ⟨[], [], [], [], [], []⟩

/-- The slug a `createForm` call produces, paired with the next state (for
concrete executions). -/
def createdSlug (s : AppState) (ws name fid : String) :
    Option (String × AppState) :=
  match createForm s ws name none false fid with
  | Except.ok (f, s') => some (f.slug, s')
  | Except.error _ => none

/-- C3: when the slug derived from the form's name already exists in the
workspace, `createForm` probes `(workspaceId, slug)` existence and appends
`-1`, `-2`, ... to the base slug until an unused slug is found (the created
form carries the first free candidate, every earlier candidate being taken);
in particular two forms named "Feedback" created in the same workspace get
slugs "feedback" and "feedback-1".  The hypothesis states the datastore
uniqueness invariant: at most one form per `(workspaceId, slug)`. -/
theorem createForm_unique_slug :
    (∀ (s : AppState) (ws name : String) (descr : Option String) (priv : Bool)
      (nid : String),
      (∀ slug, formSlugMatches s.forms ws slug ≤ 1) →
      ∃ (k : Nat) (form : Form) (s' : AppState),
        createForm s ws name descr priv nid = Except.ok (form, s') ∧
        form.slug = candidateSlug (createSlug name) k ∧
        formSlugMatches s.forms ws form.slug = 0 ∧
        (∀ j < k, formSlugMatches s.forms ws (candidateSlug (createSlug name) j) = 1) ∧
        s'.forms = s.forms ++ [form]) ∧
    (createdSlug emptyAppState "ws-1" "Feedback" "f-1").map Prod.fst
      = some "feedback" ∧
    ((createdSlug emptyAppState "ws-1" "Feedback" "f-1").bind
      (fun p => createdSlug p.2 "ws-1" "Feedback" "f-2")).map Prod.fst
      = some "feedback-1" := by
  refine ⟨?_, by decide, by decide⟩
  intro s ws name descr priv nid hnd
  obtain ⟨j, hj, hfree⟩ := exists_free_candidate s.forms ws (createSlug name)
  have hex : ∃ j', 0 ≤ j' ∧ j' < 0 + (s.forms.length + 1) ∧
      formSlugMatches s.forms ws (candidateSlug (createSlug name) j') = 0 :=
    ⟨j, by omega, by omega, hfree⟩
  obtain ⟨m, hfind, _, hm2, hm3⟩ :=
    findSlugCounter_spec hnd (s.forms.length + 1) 0 hex
  refine ⟨m, ⟨nid, ws, name, descr, priv, candidateSlug (createSlug name) m⟩,
    { s with
        forms := s.forms
          ++ [⟨nid, ws, name, descr, priv, candidateSlug (createSlug name) m⟩],
        settingsRows := s.settingsRows
          ++ [⟨nid, name, descr.getD "", "Start", true, "Thank You!",
               "Your response has been recorded.",
               "Submit Another Response"⟩] },
    ?_, rfl, hm2, fun j' hj' => hm3 j' (Nat.zero_le j') hj', rfl⟩
  unfold createForm
  dsimp only
  rw [hfind]

/-- Witness for the universally quantified part of the C3 theorem, at the
empty datastore. -/
theorem createForm_unique_slug_witness :
    (∀ slug, formSlugMatches emptyAppState.forms "ws-1" slug ≤ 1) ∧
    ∃ (k : Nat) (form : Form) (s' : AppState),
      createForm emptyAppState "ws-1" "Feedback" none false "f-1"
        = Except.ok (form, s') ∧
      form.slug = candidateSlug (createSlug "Feedback") k ∧
      formSlugMatches emptyAppState.forms "ws-1" form.slug = 0 ∧
      (∀ j < k, formSlugMatches emptyAppState.forms "ws-1"
        (candidateSlug (createSlug "Feedback") j) = 1) ∧
      s'.forms = emptyAppState.forms ++ [form] :=
  ⟨fun _ => by simp [formSlugMatches, emptyAppState],
   createForm_unique_slug.1 emptyAppState "ws-1" "Feedback" none false "f-1"
     (fun _ => by simp [formSlugMatches, emptyAppState])⟩

/-! ## `reorderQuestions` (formService.js lines 474-524)

The incoming list is grouped with
`questionOrder.reduce((acc, item) => { const key = item.parentId || 'root'; ... })`
into a plain object (string keys in insertion order), root items are
renumbered first with `order: index + 1` and `parent_id: null`, then each
child group is renumbered the same way, and the concatenation is sent as one
bulk upsert.  `item.parentId || 'root'` sends the JavaScript falsy parent ids
(null/undefined/empty string) to the root group. -/

structure ReorderItem where
  id : String
  parentId : Option String
  order : Int
deriving DecidableEq, Repr

structure QUpdate where
  id : String
  parentId : Option String
  order : Int
deriving DecidableEq, Repr

def jsGroupKey (p : Option String) : String :=
  match p with
  | none => "root"
  | some t => if t = "" then "root" else t

/-- Appending an item to the group object: extend the existing key's array or
add a new key at the end (object keys keep insertion order). -/
def addToGroups (acc : List (String × List ReorderItem)) (key : String)
    (it : ReorderItem) : List (String × List ReorderItem) :=
  match acc with
  | [] => [(key, [it])]
  | (k, items) :: rest =>
    if k = key then (k, items ++ [it]) :: rest
    else (k, items) :: addToGroups rest key it

def groupByParent (l : List ReorderItem) : List (String × List ReorderItem) :=
  l.foldl (fun acc it => addToGroups acc (jsGroupKey it.parentId) it) []

/-- Property access on the group object (`updatesByParent[key]`), with `[]`
for a missing key (`updatesByParent.root || []`). -/
def lookupGroup (g : List (String × List ReorderItem)) (key : String) :
    List ReorderItem :=
  match g.find? (fun p => p.1 == key) with
  | some p => p.2
  | none => []

/-- The `items.map((item, index) => ...)` renumbering: dense orders starting
at `n`, ignoring each item's incoming `order`. -/
def numberFrom (parent : Option String) (n : Int) :
    List ReorderItem → List QUpdate
  | [] => []
  | it :: rest => ⟨it.id, parent, n⟩ :: numberFrom parent (n + 1) rest

/-- The update list `reorderQuestions` sends in its bulk upsert: renumbered
root items first, then each child group renumbered, in group insertion
order. -/
def reorderUpdates (questionOrder : List ReorderItem) : List QUpdate :=
  let groups := groupByParent questionOrder
  numberFrom none 1 (lookupGroup groups "root")
    ++ (groups.filter (fun p => !(p.1 == "root"))).flatMap
        (fun p => numberFrom (some p.1) 1 p.2)

theorem lookupGroup_cons_self (k : String) (items : List ReorderItem)
    (rest : List (String × List ReorderItem)) :
    lookupGroup ((k, items) :: rest) k = items := by
  unfold lookupGroup
  rw [List.find?_cons_of_pos _ (by simp)]

theorem lookupGroup_cons_ne {k key : String} (items : List ReorderItem)
    (rest : List (String × List ReorderItem)) (h : ¬ k = key) :
    lookupGroup ((k, items) :: rest) key = lookupGroup rest key := by
  unfold lookupGroup
  rw [List.find?_cons_of_neg _ (by simpa using h)]

theorem lookupGroup_addToGroups
    (acc : List (String × List ReorderItem)) (k0 key : String)
    (it : ReorderItem) :
    lookupGroup (addToGroups acc k0 it) key =
      if k0 = key then lookupGroup acc key ++ [it] else lookupGroup acc key := by
  induction acc with
  | nil =>
    by_cases hk : k0 = key
    · subst hk
      rw [if_pos rfl]
      show lookupGroup [(k0, [it])] k0 = lookupGroup [] k0 ++ [it]
      rw [lookupGroup_cons_self]
      rfl
    · rw [if_neg hk]
      show lookupGroup [(k0, [it])] key = lookupGroup [] key
      rw [lookupGroup_cons_ne _ _ hk]
  | cons p rest ih =>
    obtain ⟨k, items⟩ := p
    show lookupGroup (if k = k0 then (k, items ++ [it]) :: rest
      else (k, items) :: addToGroups rest k0 it) key = _
    by_cases hk : k = k0
    · rw [if_pos hk]
      subst hk
      by_cases hkey : k = key
      · subst hkey
        rw [lookupGroup_cons_self, if_pos rfl, lookupGroup_cons_self]
      · rw [lookupGroup_cons_ne _ _ hkey, if_neg hkey,
          lookupGroup_cons_ne _ _ hkey]
    · rw [if_neg hk]
      by_cases hkey : k = key
      · subst hkey
        rw [lookupGroup_cons_self, if_neg (fun h => hk h.symm),
          lookupGroup_cons_self]
      · rw [lookupGroup_cons_ne _ _ hkey, lookupGroup_cons_ne _ _ hkey, ih]

theorem lookupGroup_foldl (l : List ReorderItem)
    (acc : List (String × List ReorderItem)) (key : String) :
    lookupGroup
        (l.foldl (fun a it => addToGroups a (jsGroupKey it.parentId) it) acc)
        key
      = lookupGroup acc key
        ++ l.filter (fun it => jsGroupKey it.parentId == key) := by
  induction l generalizing acc with
  | nil => simp
  | cons it l' ih =>
    rw [List.foldl_cons, ih, lookupGroup_addToGroups]
    by_cases hkey : jsGroupKey it.parentId = key
    · rw [if_pos hkey, List.filter_cons_of_pos (by simpa using hkey),
        List.append_assoc, List.singleton_append]
    · rw [if_neg hkey, List.filter_cons_of_neg (by simpa using hkey)]

theorem lookupGroup_groupByParent (l : List ReorderItem) (key : String) :
    lookupGroup (groupByParent l) key
      = l.filter (fun it => jsGroupKey it.parentId == key) := by
  unfold groupByParent
  rw [lookupGroup_foldl]
  rfl

theorem keys_addToGroups (acc : List (String × List ReorderItem))
    (k0 : String) (it : ReorderItem) :
    (addToGroups acc k0 it).map Prod.fst =
      if k0 ∈ acc.map Prod.fst then acc.map Prod.fst
      else acc.map Prod.fst ++ [k0] := by
  induction acc with
  | nil => simp [addToGroups]
  | cons p rest ih =>
    obtain ⟨k, items⟩ := p
    show (if k = k0 then (k, items ++ [it]) :: rest
      else (k, items) :: addToGroups rest k0 it).map Prod.fst = _
    by_cases hk : k = k0
    · subst hk
      rw [if_pos rfl]
      simp
    · rw [if_neg hk]
      simp only [List.map_cons, ih, List.mem_cons]
      by_cases hmem : k0 ∈ rest.map Prod.fst
      · rw [if_pos hmem, if_pos (Or.inr hmem)]
      · rw [if_neg hmem, if_neg (by
          rintro (h | h)
          · exact hk h.symm
          · exact hmem h)]
        simp

theorem keys_nodup_addToGroups {acc : List (String × List ReorderItem)}
    (h : (acc.map Prod.fst).Nodup) (k0 : String) (it : ReorderItem) :
    ((addToGroups acc k0 it).map Prod.fst).Nodup := by
  rw [keys_addToGroups]
  by_cases hmem : k0 ∈ acc.map Prod.fst
  · rwa [if_pos hmem]
  · rw [if_neg hmem]
    rw [List.nodup_append]
    exact ⟨h, List.nodup_singleton k0, by
      intro a ha hb
      rw [List.mem_singleton] at hb
      subst hb
      exact hmem ha⟩

theorem keys_nodup_groupByParent (l : List ReorderItem) :
    ((groupByParent l).map Prod.fst).Nodup := by
  unfold groupByParent
  suffices hgen : ∀ acc : List (String × List ReorderItem),
      (acc.map Prod.fst).Nodup →
      ((l.foldl (fun a it => addToGroups a (jsGroupKey it.parentId) it)
        acc).map Prod.fst).Nodup from hgen [] (by simp)
  induction l with
  | nil => intro acc h; simpa using h
  | cons it l' ih =>
    intro acc h
    rw [List.foldl_cons]
    exact ih _ (keys_nodup_addToGroups h _ it)

theorem mem_numberFrom {u : QUpdate} {parent : Option String} :
    ∀ {n : Int} {items : List ReorderItem},
      u ∈ numberFrom parent n items → u.parentId = parent := by
  intro n items
  induction items generalizing n with
  | nil => intro h; simp [numberFrom] at h
  | cons it rest ih =>
    intro h
    rcases List.mem_cons.mp h with rfl | h'
    · rfl
    · exact ih h'

theorem numberFrom_filter_parent (parent : Option String) (p : String) :
    ∀ (n : Int) (items : List ReorderItem),
      (numberFrom parent n items).filter (fun u => u.parentId == some p)
        = if parent = some p then numberFrom parent n items else [] := by
  intro n items
  induction items generalizing n with
  | nil => simp [numberFrom]
  | cons it rest ih =>
    by_cases hp : parent = some p
    · subst hp
      rw [if_pos rfl]
      show List.filter _ (⟨it.id, some p, n⟩ :: numberFrom (some p) (n + 1) rest) = _
      rw [List.filter_cons_of_pos (by simp), ih, if_pos rfl]
      rfl
    · rw [if_neg hp]
      show List.filter _ (⟨it.id, parent, n⟩ :: numberFrom parent (n + 1) rest) = _
      rw [List.filter_cons_of_neg (by simpa using hp), ih, if_neg hp]

theorem filter_flatMap {α β : Type} (L : List α) (f : α → List β)
    (p : β → Bool) :
    (L.flatMap f).filter p = L.flatMap (fun a => (f a).filter p) := by
  induction L with
  | nil => rfl
  | cons a L' ih =>
    rw [List.flatMap_cons, List.flatMap_cons, List.filter_append, ih]

theorem flatMap_key_absent {β : Type} {p : String}
    (F : (String × List ReorderItem) → List β) :
    ∀ {L : List (String × List ReorderItem)}, p ∉ L.map Prod.fst →
      L.flatMap (fun g => if g.1 = p then F g else []) = [] := by
  intro L
  induction L with
  | nil => intro _; rfl
  | cons g L' ih =>
    intro h
    rw [List.flatMap_cons, if_neg (fun hg => h (by rw [← hg]; simp)),
      List.nil_append]
    exact ih (fun hm => h (List.mem_cons_of_mem _ hm))

theorem flatMap_key_nodup {β : Type} {p : String}
    (F : (String × List ReorderItem) → List β) :
    ∀ {L : List (String × List ReorderItem)}, (L.map Prod.fst).Nodup →
      L.flatMap (fun g => if g.1 = p then F g else [])
        = (match L.find? (fun g => g.1 == p) with
          | some g => F g
          | none => []) := by
  intro L
  induction L with
  | nil => intro _; rfl
  | cons g L' ih =>
    intro hnd
    rw [List.map_cons] at hnd
    obtain ⟨hnotin, hnd2⟩ := List.nodup_cons.mp hnd
    rw [List.flatMap_cons]
    by_cases hg : g.1 = p
    · rw [if_pos hg, List.find?_cons_of_pos _ (by simpa using hg)]
      have habs : p ∉ L'.map Prod.fst := by rwa [hg] at hnotin
      rw [flatMap_key_absent F habs, List.append_nil]
    · rw [if_neg hg, List.find?_cons_of_neg _ (by simpa using hg),
        List.nil_append]
      exact ih hnd2

theorem find?_filter_of_imp {α : Type} {q r : α → Bool} (l : List α)
    (h : ∀ a, r a = true → q a = true) :
    (l.filter q).find? r = l.find? r := by
  induction l with
  | nil => rfl
  | cons a l' ih =>
    by_cases hq : q a = true
    · rw [List.filter_cons_of_pos hq]
      by_cases hr : r a = true
      · rw [List.find?_cons_of_pos _ hr, List.find?_cons_of_pos _ hr]
      · rw [List.find?_cons_of_neg _ (by simpa using hr),
          List.find?_cons_of_neg _ (by simpa using hr), ih]
    · rw [List.filter_cons_of_neg (by simpa using hq)]
      have hr : r a = false := by
        cases hra : r a
        · rfl
        · exact absurd (h a hra) hq
      rw [List.find?_cons_of_neg _ (by simp [hr]), ih]

theorem childPart_filter (l : List ReorderItem) {p : String}
    (hroot : ¬ p = "root") :
    (((groupByParent l).filter (fun g => !(g.1 == "root"))).flatMap
        (fun g => numberFrom (some g.1) 1 g.2)).filter
        (fun u => u.parentId == some p)
      = numberFrom (some p) 1 (lookupGroup (groupByParent l) p) := by
  rw [filter_flatMap]
  have hcong : (fun g : String × List ReorderItem =>
        (numberFrom (some g.1) 1 g.2).filter (fun u => u.parentId == some p))
      = fun g => if g.1 = p then numberFrom (some g.1) 1 g.2 else [] := by
    funext g
    rw [numberFrom_filter_parent]
    by_cases hg : g.1 = p
    · rw [if_pos (by rw [hg]), if_pos hg]
    · rw [if_neg (by simpa using hg), if_neg hg]
  rw [hcong]
  have hnd : (((groupByParent l).filter
      (fun g => !(g.1 == "root"))).map Prod.fst).Nodup := by
    have hsub : List.Sublist
        (((groupByParent l).filter (fun g => !(g.1 == "root"))).map Prod.fst)
        ((groupByParent l).map Prod.fst) :=
      (List.filter_sublist _).map Prod.fst
    exact (keys_nodup_groupByParent l).sublist hsub
  rw [flatMap_key_nodup _ hnd]
  rw [find?_filter_of_imp _ (by
    intro g hg
    simp only [beq_iff_eq] at hg
    simp [hg, hroot])]
  unfold lookupGroup
  cases hf : (groupByParent l).find? (fun g => g.1 == p) with
  | none => rfl
  | some g =>
    have hg : g.1 = p := by simpa using List.find?_some hf
    show numberFrom (some g.1) 1 g.2 = numberFrom (some p) 1 g.2
    rw [hg]

theorem rootPart_filter (l : List ReorderItem) (p : String) :
    (numberFrom none 1 (lookupGroup (groupByParent l) "root")).filter
      (fun u => u.parentId == some p) = [] := by
  rw [numberFrom_filter_parent, if_neg (by simp)]

theorem numberFrom_map_id_preserving {g : ReorderItem → ReorderItem}
    (hid : ∀ it, (g it).id = it.id) (parent : Option String) :
    ∀ (n : Int) (items : List ReorderItem),
      numberFrom parent n (items.map g) = numberFrom parent n items := by
  intro n items
  induction items generalizing n with
  | nil => rfl
  | cons it rest ih =>
    show (⟨(g it).id, parent, n⟩ : QUpdate) :: _ = (⟨it.id, parent, n⟩ : QUpdate) :: _
    rw [hid it, ih]

theorem addToGroups_map {g : ReorderItem → ReorderItem}
    (acc : List (String × List ReorderItem)) (key : String) (it : ReorderItem) :
    addToGroups (acc.map (fun q => (q.1, q.2.map g))) key (g it)
      = (addToGroups acc key it).map (fun q => (q.1, q.2.map g)) := by
  induction acc with
  | nil => rfl
  | cons q rest ih =>
    obtain ⟨k, items⟩ := q
    show (if k = key then (k, items.map g ++ [g it])
        :: rest.map (fun q => (q.1, q.2.map g))
      else (k, items.map g)
        :: addToGroups (rest.map (fun q => (q.1, q.2.map g))) key (g it))
      = (if k = key then (k, items ++ [it]) :: rest
        else (k, items) :: addToGroups rest key it).map (fun q => (q.1, q.2.map g))
    by_cases hk : k = key
    · rw [if_pos hk, if_pos hk]
      simp
    · rw [if_neg hk, if_neg hk, List.map_cons, ih]

theorem groupByParent_map {g : ReorderItem → ReorderItem}
    (hpar : ∀ it, (g it).parentId = it.parentId) (l : List ReorderItem) :
    groupByParent (l.map g)
      = (groupByParent l).map (fun q => (q.1, q.2.map g)) := by
  unfold groupByParent
  suffices hgen : ∀ acc : List (String × List ReorderItem),
      (l.map g).foldl (fun a it => addToGroups a (jsGroupKey it.parentId) it)
        (acc.map (fun q => (q.1, q.2.map g)))
      = (l.foldl (fun a it => addToGroups a (jsGroupKey it.parentId) it)
        acc).map (fun q => (q.1, q.2.map g)) from hgen []
  induction l with
  | nil => intro acc; rfl
  | cons it l' ih =>
    intro acc
    rw [List.map_cons, List.foldl_cons, List.foldl_cons, hpar it,
      addToGroups_map, ih]

theorem lookupGroup_map {g : ReorderItem → ReorderItem}
    (G : List (String × List ReorderItem)) (key : String) :
    lookupGroup (G.map (fun q => (q.1, q.2.map g))) key
      = (lookupGroup G key).map g := by
  induction G with
  | nil => rfl
  | cons q G' ih =>
    obtain ⟨k, items⟩ := q
    by_cases hk : k = key
    · subst hk
      rw [List.map_cons]
      rw [show ((k, items.map g) :: G'.map (fun q => (q.1, q.2.map g)))
          = ((k, items.map g) :: G'.map (fun q => (q.1, q.2.map g))) from rfl]
      rw [lookupGroup_cons_self, lookupGroup_cons_self]
    · rw [List.map_cons, lookupGroup_cons_ne _ _ hk, lookupGroup_cons_ne _ _ hk,
        ih]

theorem flatMap_map_groups {g : ReorderItem → ReorderItem}
    (hid : ∀ it, (g it).id = it.id)
    (G : List (String × List ReorderItem)) :
    (G.map (fun q => (q.1, q.2.map g))).flatMap
        (fun q => numberFrom (some q.1) 1 q.2)
      = G.flatMap (fun q => numberFrom (some q.1) 1 q.2) := by
  induction G with
  | nil => rfl
  | cons q G' ih =>
    rw [List.map_cons, List.flatMap_cons, List.flatMap_cons, ih]
    show numberFrom (some q.1) 1 (q.2.map g) ++ _ = _
    rw [numberFrom_map_id_preserving hid]

/-- C4: the update list computed by `reorderQuestions` groups the input by
target parent (null/absent parent meaning root), renumbers each group densely
1, 2, 3, ... in input sequence, ignores the incoming order values, places all
root-level updates before all child updates, and in particular three root
questions submitted with orders [3,1,2] get dense orders [1,2,3] in the
submitted sequence. -/
theorem reorderUpdates_spec :
    (∀ l : List ReorderItem,
      ∃ rest, reorderUpdates l
          = numberFrom none 1
              (l.filter (fun it => jsGroupKey it.parentId == "root")) ++ rest ∧
        ∀ u ∈ rest, u.parentId ≠ none) ∧
    (∀ (l : List ReorderItem) (p : String), ¬ p = "root" → ¬ p = "" →
      (reorderUpdates l).filter (fun u => u.parentId == some p)
        = numberFrom (some p) 1
            (l.filter (fun it => jsGroupKey it.parentId == p))) ∧
    (∀ (l : List ReorderItem) (f : ReorderItem → Int),
      reorderUpdates (l.map (fun it => ⟨it.id, it.parentId, f it⟩))
        = reorderUpdates l) ∧
    reorderUpdates [⟨"a", none, 3⟩, ⟨"b", none, 1⟩, ⟨"c", none, 2⟩]
      = [⟨"a", none, 1⟩, ⟨"b", none, 2⟩, ⟨"c", none, 3⟩] := by
  refine ⟨?_, ?_, ?_, by decide⟩
  · intro l
    refine ⟨((groupByParent l).filter (fun g => !(g.1 == "root"))).flatMap
      (fun g => numberFrom (some g.1) 1 g.2), ?_, ?_⟩
    · unfold reorderUpdates
      dsimp only
      rw [lookupGroup_groupByParent]
    · intro u hu
      obtain ⟨g, hgmem, humem⟩ := List.mem_flatMap.mp hu
      rw [mem_numberFrom humem]
      simp
  · intro l p hroot hempty
    unfold reorderUpdates
    dsimp only
    rw [List.filter_append, rootPart_filter, List.nil_append,
      childPart_filter l hroot, lookupGroup_groupByParent]
  · intro l f
    unfold reorderUpdates
    dsimp only
    rw [groupByParent_map
        (g := fun it => (⟨it.id, it.parentId, f it⟩ : ReorderItem))
        (fun _ => rfl) l,
      lookupGroup_map,
      numberFrom_map_id_preserving
        (g := fun it => (⟨it.id, it.parentId, f it⟩ : ReorderItem))
        (fun _ => rfl),
      show ((groupByParent l).map (fun q => (q.1, q.2.map
          (fun it => (⟨it.id, it.parentId, f it⟩ : ReorderItem))))).filter
          (fun g => !(g.1 == "root"))
        = ((groupByParent l).filter (fun g => !(g.1 == "root"))).map
            (fun q => (q.1, q.2.map
              (fun it => (⟨it.id, it.parentId, f it⟩ : ReorderItem)))) from by
        rw [List.filter_map]
        rfl,
      flatMap_map_groups
        (g := fun it => (⟨it.id, it.parentId, f it⟩ : ReorderItem))
        (fun _ => rfl)]

/-- Witness for the hypothesis-bearing parts of the C4 theorem, at a concrete
two-item input and parent id. -/
theorem reorderUpdates_spec_witness :
    (reorderUpdates [⟨"x", some "p1", 5⟩, ⟨"y", none, 2⟩]).filter
        (fun u => u.parentId == some "p1")
      = numberFrom (some "p1") 1
          ([(⟨"x", some "p1", 5⟩ : ReorderItem), ⟨"y", none, 2⟩].filter
            (fun it => jsGroupKey it.parentId == "p1")) :=
  reorderUpdates_spec.2.1 [⟨"x", some "p1", 5⟩, ⟨"y", none, 2⟩] "p1"
    (by decide) (by decide)

/-! ## `deleteForm` (formService.js lines 286-348)

The service fetches the form with its question ids, choice ids and settings
via `.single()` (failing when the form is absent), then issues, in order: one
`question_choices` delete per fetched question, the `questions` delete, the
`form_settings` delete, and finally the `forms` delete, throwing at the first
failed step.  The JavaScript guards `if (form.questions)` and
`if (form.form_settings)` test embedded arrays, which are always truthy, so
every step runs.  Datastore failures are injected through `err`. -/

inductive DbOp where
  | fetchForm (fid : String)
  | delChoicesOf (qid : String)
  | delQuestionsOf (fid : String)
  | delSettingsOf (fid : String)
  | delFormRow (fid : String)
deriving DecidableEq, Repr

def applyOp (s : AppState) : DbOp → AppState
  | DbOp.fetchForm _ => s
  | DbOp.delChoicesOf qid =>
    { s with choices := s.choices.filter (fun c => !(c.questionId == qid)) }
  | DbOp.delQuestionsOf fid =>
    { s with questions := s.questions.filter (fun q => !(q.formId == fid)) }
  | DbOp.delSettingsOf fid =>
    { s with settingsRows := s.settingsRows.filter (fun r => !(r.formId == fid)) }
  | DbOp.delFormRow fid =>
    { s with forms := s.forms.filter (fun f => !(f.id == fid)) }

/-- Run the datastore calls in order, stopping at the first one the
environment fails; returns final state, the trace of attempted calls, and
whether every call succeeded. -/
def runOps (err : DbOp → Bool) : AppState → List DbOp → AppState × List DbOp × Bool
  | s, [] => (s, [], true)
  | s, op :: rest =>
    if err op then (s, [op], false)
    else
      let r := runOps err (applyOp s op) rest
      (r.1, op :: r.2.1, r.2.2)

/-- The delete calls `deleteForm` issues after the fetch, in source order. -/
def deleteFormPlan (s : AppState) (fid : String) : List DbOp :=
  ((s.questions.filter (fun q => q.formId == fid)).map
      (fun q => DbOp.delChoicesOf q.id))
    ++ [DbOp.delQuestionsOf fid, DbOp.delSettingsOf fid, DbOp.delFormRow fid]

def deleteForm (s : AppState) (err : DbOp → Bool) (fid : String) :
    AppState × List DbOp × Bool :=
  if err (DbOp.fetchForm fid)
      || !((s.forms.filter (fun f => f.id == fid)).length == 1) then
    (s, [DbOp.fetchForm fid], false)
  else
    let r := runOps err s (deleteFormPlan s fid)
    (r.1, DbOp.fetchForm fid :: r.2.1, r.2.2)

theorem runOps_noerr {err : DbOp → Bool} :
    ∀ (ops : List DbOp) (s : AppState), (∀ op ∈ ops, err op = false) →
      runOps err s ops = (ops.foldl applyOp s, ops, true) := by
  intro ops
  induction ops with
  | nil => intro s _; rfl
  | cons op rest ih =>
    intro s h
    have hop : err op = false := h op (List.mem_cons_self op rest)
    show (if err op then _ else _) = _
    rw [hop]
    simp only [Bool.false_eq_true, if_false]
    rw [ih (applyOp s op) (fun o ho => h o (List.mem_cons_of_mem _ ho))]
    rfl

theorem runOps_err_prefix {err : DbOp → Bool} :
    ∀ (pre : List DbOp) (op : DbOp) (post : List DbOp) (s : AppState),
      (∀ o ∈ pre, err o = false) → err op = true →
      runOps err s (pre ++ op :: post)
        = (pre.foldl applyOp s, pre ++ [op], false) := by
  intro pre
  induction pre with
  | nil =>
    intro op post s _ hop
    show (if err op then _ else _) = _
    rw [hop]
    rfl
  | cons o pre' ih =>
    intro op post s h hop
    have ho : err o = false := h o (List.mem_cons_self o pre')
    show (if err o then _ else _) = _
    rw [ho]
    simp only [Bool.false_eq_true, if_false, List.append_eq]
    rw [ih op post (applyOp s o) (fun x hx => h x (List.mem_cons_of_mem _ hx)) hop]
    rfl

theorem foldl_delChoices :
    ∀ (qids : List String) (s : AppState),
      (qids.map DbOp.delChoicesOf).foldl applyOp s
        = { s with choices :=
            s.choices.filter (fun c => decide (¬ c.questionId ∈ qids)) } := by
  intro qids
  induction qids with
  | nil =>
    intro s
    show s = _
    have hf : s.choices.filter (fun c => decide (¬ c.questionId ∈ ([] : List String)))
        = s.choices := by
      refine List.filter_eq_self.mpr (fun c _ => ?_)
      simp
    rw [hf]
  | cons qid rest ih =>
    intro s
    rw [List.map_cons, List.foldl_cons]
    show (rest.map DbOp.delChoicesOf).foldl applyOp
      { s with choices := s.choices.filter (fun c => !(c.questionId == qid)) } = _
    rw [ih]
    have hch : (s.choices.filter (fun c => !(c.questionId == qid))).filter
          (fun c => decide (¬ c.questionId ∈ rest))
        = s.choices.filter (fun c => decide (¬ c.questionId ∈ qid :: rest)) := by
      rw [List.filter_filter]
      refine List.filter_congr (fun c _ => ?_)
      refine Bool.eq_iff_iff.mpr ?_
      simp only [Bool.and_eq_true, Bool.not_eq_true', beq_eq_false_iff_ne,
        decide_eq_true_eq, List.mem_cons, not_or]
      tauto
    exact congrArg (fun x => ({ s with choices := x } : AppState)) hch

theorem map_delChoicesOf (L : List Question) :
    L.map (fun q => DbOp.delChoicesOf q.id)
      = (L.map (fun q => q.id)).map DbOp.delChoicesOf := by
  rw [List.map_map]
  rfl

/-- C5: `deleteForm` deletes the form's question choices first, then its
questions, then its settings, then the form row, in exactly that order; a
failing step aborts all remaining steps and surfaces the error; and on full
success no questions, choices or settings belonging to the form remain.  The
hypotheses say the form exists (with a unique id) and the initial fetch
succeeds. -/
theorem deleteForm_spec :
    ∀ (s : AppState) (fid : String) (err : DbOp → Bool),
      (s.forms.filter (fun f => f.id == fid)).length = 1 →
      err (DbOp.fetchForm fid) = false →
      (((∀ op, err op = false) →
        (deleteForm s err fid).2.2 = true ∧
        (deleteForm s err fid).2.1
          = DbOp.fetchForm fid
            :: (((s.questions.filter (fun q => q.formId == fid)).map
                  (fun q => DbOp.delChoicesOf q.id))
              ++ [DbOp.delQuestionsOf fid, DbOp.delSettingsOf fid,
                  DbOp.delFormRow fid]) ∧
        (∀ q ∈ (deleteForm s err fid).1.questions, ¬ q.formId = fid) ∧
        (∀ r ∈ (deleteForm s err fid).1.settingsRows, ¬ r.formId = fid) ∧
        (∀ f ∈ (deleteForm s err fid).1.forms, ¬ f.id = fid) ∧
        (∀ c ∈ (deleteForm s err fid).1.choices, ∀ q ∈ s.questions,
          q.formId = fid → ¬ c.questionId = q.id)) ∧
      (∀ (pre : List DbOp) (op : DbOp) (post : List DbOp),
        deleteFormPlan s fid = pre ++ op :: post →
        (∀ o ∈ pre, err o = false) → err op = true →
        deleteForm s err fid
          = (pre.foldl applyOp s,
             DbOp.fetchForm fid :: (pre ++ [op]), false))) := by
  intro s fid err hone hfetch
  have hcond : (err (DbOp.fetchForm fid)
      || !((s.forms.filter (fun f => f.id == fid)).length == 1)) = false := by
    rw [hfetch, hone]
    rfl
  have hdf : deleteForm s err fid
      = ((runOps err s (deleteFormPlan s fid)).1,
         DbOp.fetchForm fid :: (runOps err s (deleteFormPlan s fid)).2.1,
         (runOps err s (deleteFormPlan s fid)).2.2) := by
    unfold deleteForm
    rw [hcond]
    rfl
  have hstate : (deleteFormPlan s fid).foldl applyOp s
      = ⟨s.forms.filter (fun f => !(f.id == fid)),
         s.questions.filter (fun q => !(q.formId == fid)),
         s.choices.filter (fun c => decide (¬ c.questionId ∈
           (s.questions.filter (fun q => q.formId == fid)).map (fun q => q.id))),
         s.settingsRows.filter (fun r => !(r.formId == fid)),
         s.submissions, s.analytics⟩ := by
    unfold deleteFormPlan
    rw [map_delChoicesOf, List.foldl_append, foldl_delChoices]
    rfl
  constructor
  · intro hne
    have hrun := runOps_noerr (deleteFormPlan s fid) s (fun op _ => hne op)
    rw [hdf, hrun]
    refine ⟨rfl, ?_, ?_, ?_, ?_, ?_⟩
    · show DbOp.fetchForm fid :: deleteFormPlan s fid = _
      rfl
    · intro q hq
      rw [hstate] at hq
      have := (List.mem_filter.mp hq).2
      simpa using this
    · intro r hr
      rw [hstate] at hr
      have := (List.mem_filter.mp hr).2
      simpa using this
    · intro f hf
      rw [hstate] at hf
      have := (List.mem_filter.mp hf).2
      simpa using this
    · intro c hc q hqmem hqfid
      rw [hstate] at hc
      have hpred := (List.mem_filter.mp hc).2
      simp only [decide_eq_true_eq] at hpred
      intro hid
      exact hpred (List.mem_map.mpr ⟨q,
        List.mem_filter.mpr ⟨hqmem, by simp [hqfid]⟩, hid.symm⟩)
  · intro pre op post hplan hpre hop
    rw [hdf, hplan, runOps_err_prefix pre op post s hpre hop]

def w5Question : Question :=
  ⟨"q-1", "form-1", "short-text", "Name?", none, true, some 100, 1, none⟩

def w5State : AppState :=
  ⟨[⟨"form-1", "ws-1", "Survey", none, false, "survey"⟩],
   [w5Question],
   [⟨"c-1", "q-1", "Yes", 1⟩],
   [⟨"form-1", "Survey", "", "Start", true, "Thank You!",
     "Your response has been recorded.", "Submit Another Response"⟩],
   [], []⟩

/-- Witness for the C5 theorem at a concrete one-form state with no injected
failures. -/
theorem deleteForm_spec_witness :
    ((w5State.forms.filter (fun f => f.id == "form-1")).length = 1) ∧
    (deleteForm w5State (fun _ => false) "form-1").2.2 = true :=
  ⟨by decide,
   ((deleteForm_spec w5State "form-1" (fun _ => false) (by decide) rfl).1
     (fun _ => rfl)).1⟩

/-! ## `updateFormAnalytics` (formService.js lines 1016-1066)

The service fetches the form's completed submissions, computes
`totalSubmissions` and `Math.round` of the mean completion time (0 when there
are no completed submissions, and null completion times counted as 0), and
upserts one `form_analytics` row keyed on `form_id`.  `jsRoundDiv sum n` is
`Math.round(sum / n)`: round-half-up, exact on these integer inputs. -/

def completedSubmissions (s : AppState) (fid : String) : List Submission :=
  s.submissions.filter
    (fun r => decide (r.formId = fid ∧ r.status = SubStatus.completed))

def jsRoundDiv (sum n : Nat) : Nat := (2 * sum + n) / (2 * n)

/-- The analytics row the upsert writes. -/
def analyticsValue (s : AppState) (fid : String) (now : Nat) : AnalyticsRow :=
  let subs := completedSubmissions s fid
  ⟨fid, subs.length,
   if subs.length > 0 then
     jsRoundDiv ((subs.map (fun r => r.completionTime.getD 0)).sum) subs.length
   else 0,
   now⟩

def upsertAnalytics (rows : List AnalyticsRow) (row : AnalyticsRow) :
    List AnalyticsRow :=
  if rows.any (fun r => r.formId == row.formId) then
    rows.map (fun r => if r.formId == row.formId then row else r)
  else rows ++ [row]

def updateFormAnalytics (s : AppState) (fid : String) (now : Nat) : AppState :=
  { s with analytics := upsertAnalytics s.analytics (analyticsValue s fid now) }

def analyticsFor (s : AppState) (fid : String) : Option AnalyticsRow :=
  s.analytics.find? (fun r => r.formId == fid)

theorem find?_upsertAnalytics (rows : List AnalyticsRow) (row : AnalyticsRow) :
    (upsertAnalytics rows row).find? (fun r => r.formId == row.formId)
      = some row := by
  induction rows with
  | nil =>
    show List.find? _ ([] ++ [row]) = _
    rw [List.nil_append, List.find?_cons_of_pos _ (by simp)]
  | cons r rs ih =>
    by_cases hr : r.formId = row.formId
    · have hany : (r :: rs).any (fun x => x.formId == row.formId) = true := by
        simp [List.any_cons, hr]
      unfold upsertAnalytics
      rw [hany]
      simp only [if_true, List.map_cons]
      rw [if_pos (by simpa using hr), List.find?_cons_of_pos _ (by simp)]
    · cases hany : rs.any (fun x => x.formId == row.formId) with
      | true =>
        have hany2 : (r :: rs).any (fun x => x.formId == row.formId) = true := by
          simp [List.any_cons, hany]
        unfold upsertAnalytics
        rw [hany2]
        simp only [if_true, List.map_cons]
        rw [if_neg (by simpa using hr),
          List.find?_cons_of_neg _ (by simpa using hr)]
        unfold upsertAnalytics at ih
        rw [hany] at ih
        simpa using ih
      | false =>
        have hany2 : (r :: rs).any (fun x => x.formId == row.formId) = false := by
          simp [List.any_cons, hany, hr]
        unfold upsertAnalytics
        rw [hany2]
        simp only [Bool.false_eq_true, if_false, List.cons_append]
        rw [List.find?_cons_of_neg _ (by simpa using hr)]
        unfold upsertAnalytics at ih
        rw [hany] at ih
        simpa using ih

theorem upsertAnalytics_twice {row1 row2 : AnalyticsRow}
    (h : row1.formId = row2.formId) (rows : List AnalyticsRow) :
    upsertAnalytics (upsertAnalytics rows row1) row2
      = upsertAnalytics rows row2 := by
  cases hany : rows.any (fun r => r.formId == row1.formId) with
  | true =>
    have hany2 : rows.any (fun r => r.formId == row2.formId) = true := by
      rw [← h]
      exact hany
    have h1 : upsertAnalytics rows row1
        = rows.map (fun r => if r.formId == row1.formId then row1 else r) := by
      unfold upsertAnalytics
      rw [hany]
      rfl
    have h2 : upsertAnalytics rows row2
        = rows.map (fun r => if r.formId == row2.formId then row2 else r) := by
      unfold upsertAnalytics
      rw [hany2]
      rfl
    have hmap : (rows.map (fun r => if r.formId == row1.formId then row1 else r)).any
        (fun r => r.formId == row2.formId) = true := by
      obtain ⟨r, hmem, hpr⟩ := List.any_eq_true.mp hany
      refine List.any_eq_true.mpr ⟨row1, List.mem_map.mpr ⟨r, hmem, ?_⟩, by simp [h]⟩
      rw [if_pos hpr]
    have h3 : upsertAnalytics
          (rows.map (fun r => if r.formId == row1.formId then row1 else r)) row2
        = (rows.map (fun r => if r.formId == row1.formId then row1 else r)).map
            (fun r => if r.formId == row2.formId then row2 else r) := by
      unfold upsertAnalytics
      rw [hmap]
      rfl
    rw [h1, h3, h2, List.map_map]
    refine List.map_congr_left (fun r _ => ?_)
    show (if (if r.formId == row1.formId then row1 else r).formId == row2.formId
      then row2 else (if r.formId == row1.formId then row1 else r)) = _
    by_cases hr : r.formId = row1.formId
    · have e1 : (if (r.formId == row1.formId) = true then row1 else r) = row1 :=
        if_pos (by simpa using hr)
      rw [e1, if_pos (show (row1.formId == row2.formId) = true from by simp [h]),
        if_pos (show (r.formId == row2.formId) = true from by simp [hr.trans h])]
    · have e1 : (if (r.formId == row1.formId) = true then row1 else r) = r :=
        if_neg (by simpa using hr)
      rw [e1]
  | false =>
    have hany2 : rows.any (fun r => r.formId == row2.formId) = false := by
      rw [← h]
      exact hany
    have happ : (rows ++ [row1]).any (fun r => r.formId == row2.formId) = true := by
      refine List.any_eq_true.mpr ⟨row1, by simp, by simp [h]⟩
    have h1 : upsertAnalytics rows row1 = rows ++ [row1] := by
      unfold upsertAnalytics
      rw [hany]
      rfl
    have h2 : upsertAnalytics rows row2 = rows ++ [row2] := by
      unfold upsertAnalytics
      rw [hany2]
      rfl
    have h3 : upsertAnalytics (rows ++ [row1]) row2
        = (rows ++ [row1]).map
            (fun r => if r.formId == row2.formId then row2 else r) := by
      unfold upsertAnalytics
      rw [happ]
      rfl
    rw [h1, h3, h2, List.map_append]
    have hmaprows : rows.map (fun r => if r.formId == row2.formId then row2 else r)
        = rows := by
      have hpt : rows.map (fun r => if r.formId == row2.formId then row2 else r)
          = rows.map id := by
        refine List.map_congr_left (fun r hmem => ?_)
        have hno : (r.formId == row2.formId) = false := by
          have hfa := List.any_eq_false.mp hany2
          simpa using hfa r hmem
        rw [if_neg (by simpa using hno)]
        rfl
      rw [hpt, List.map_id]
    rw [hmaprows]
    show rows ++ [if row1.formId == row2.formId then row2 else row1] = _
    rw [if_pos (by simpa using h)]

/-- C6: `updateFormAnalytics` writes `total_submissions` equal to the number
of completed submissions of the form, and recomputation is idempotent:
running it again over the same submissions produces the same analytics state
and the same analytics values. -/
theorem updateFormAnalytics_spec :
    ∀ (s : AppState) (fid : String) (now later : Nat),
      analyticsFor (updateFormAnalytics s fid now) fid
        = some (analyticsValue s fid now) ∧
      (analyticsValue s fid now).totalSubmissions
        = (completedSubmissions s fid).length ∧
      updateFormAnalytics (updateFormAnalytics s fid now) fid later
        = updateFormAnalytics s fid later ∧
      (analyticsValue (updateFormAnalytics s fid now) fid later).totalSubmissions
        = (analyticsValue s fid now).totalSubmissions ∧
      (analyticsValue (updateFormAnalytics s fid now) fid later).averageCompletionTime
        = (analyticsValue s fid now).averageCompletionTime := by
  intro s fid now later
  refine ⟨?_, rfl, ?_, rfl, rfl⟩
  · show (upsertAnalytics s.analytics (analyticsValue s fid now)).find?
      (fun r => r.formId == fid) = _
    have := find?_upsertAnalytics s.analytics (analyticsValue s fid now)
    exact this
  · have key : upsertAnalytics
          (upsertAnalytics s.analytics (analyticsValue s fid now))
          (analyticsValue (updateFormAnalytics s fid now) fid later)
        = upsertAnalytics s.analytics (analyticsValue s fid later) := by
      have hval : analyticsValue (updateFormAnalytics s fid now) fid later
          = analyticsValue s fid later := rfl
      rw [hval]
      exact @upsertAnalytics_twice (analyticsValue s fid now)
        (analyticsValue s fid later) rfl s.analytics
    exact congrArg (fun x => ({ s with analytics := x } : AppState)) key

/-! ## `updateQuestion` (formService.js lines 408-450)

When a choices array is supplied, the service deletes every existing
`question_choices` row of the question and bulk-inserts the new texts with
`order: index + 1` (the insert is skipped for an empty array, which
`buildChoices` renders as the empty insert).  Fresh row ids come from the
datastore, modelled by the generator `idGen`. -/

def buildChoices (qid : String) (idGen : Nat → String) :
    Nat → List String → List Choice
  | _, [] => []
  | i, t :: ts => ⟨idGen i, qid, t, (i : Int) + 1⟩ :: buildChoices qid idGen (i + 1) ts

def updateQuestion (s : AppState) (qid : String) (text : String)
    (descr : Option String) (isReq : Bool) (maxChars : Option Nat)
    (choices : Option (List String)) (idGen : Nat → String) :
    Except String AppState :=
  if (s.questions.filter (fun q => q.id == qid)).length == 1 then
    let qs' := s.questions.map (fun q =>
      if q.id == qid then
        { q with text := text, description := descr,
                 isRequired := isReq, maxChars := maxChars }
      else q)
    match choices with
    | none => Except.ok { s with questions := qs' }
    | some cs =>
      Except.ok
        { s with
            questions := qs',
            choices := s.choices.filter (fun c => !(c.questionId == qid))
              ++ buildChoices qid idGen 0 cs }
  else Except.error "single() did not match exactly one question"

theorem mem_buildChoices {qid : String} {idGen : Nat → String} {c : Choice} :
    ∀ {i : Nat} {cs : List String}, c ∈ buildChoices qid idGen i cs →
      ∃ j, i ≤ j ∧ c.id = idGen j := by
  intro i cs
  induction cs generalizing i with
  | nil => intro h; simp [buildChoices] at h
  | cons t ts ih =>
    intro h
    rcases List.mem_cons.mp h with rfl | h'
    · exact ⟨i, le_refl i, rfl⟩
    · obtain ⟨j, hj, hid⟩ := ih h'
      exact ⟨j, by omega, hid⟩

theorem buildChoices_getElem {qid : String} {idGen : Nat → String} :
    ∀ (i : Nat) (cs : List String) (j : Nat) (t : String), cs[j]? = some t →
      (buildChoices qid idGen i cs)[j]?
        = some ⟨idGen (i + j), qid, t, (i : Int) + j + 1⟩ := by
  intro i cs
  induction cs generalizing i with
  | nil => intro j t h; simp at h
  | cons c cs' ih =>
    intro j t h
    cases j with
    | zero =>
      rw [List.getElem?_cons_zero] at h
      injection h with h'
      subst h'
      rw [show buildChoices qid idGen i (c :: cs')
          = ⟨idGen i, qid, c, (i : Int) + 1⟩ :: buildChoices qid idGen (i + 1) cs'
        from rfl]
      rw [List.getElem?_cons_zero]
      simp
    | succ j' =>
      rw [List.getElem?_cons_succ] at h
      rw [show buildChoices qid idGen i (c :: cs')
          = ⟨idGen i, qid, c, (i : Int) + 1⟩ :: buildChoices qid idGen (i + 1) cs'
        from rfl]
      rw [List.getElem?_cons_succ, ih (i + 1) j' t h]
      have h1 : i + 1 + j' = i + (j' + 1) := by omega
      have h2 : ((i + 1 : Nat) : Int) + (j' : Int) + 1
          = (i : Int) + ((j' + 1 : Nat) : Int) + 1 := by
        push_cast
        omega
      rw [h1, h2]

/-- C9: when `updateQuestion` is given a choices list, the question's choice
set is fully replaced: all existing choice rows of the question are deleted,
the new list is bulk-inserted with `order = index + 1` and the given texts,
and (choice ids being unique and the inserted ids fresh) none of the previous
choice rows nor their ids survive. -/
theorem updateQuestion_replaces_choices :
    ∀ (s : AppState) (qid text : String) (descr : Option String) (isReq : Bool)
      (mc : Option Nat) (cs : List String) (idGen : Nat → String),
      (s.questions.filter (fun q => q.id == qid)).length = 1 →
      (∀ i, ¬ idGen i ∈ s.choices.map (fun c => c.id)) →
      (s.choices.map (fun c => c.id)).Nodup →
      ∃ s', updateQuestion s qid text descr isReq mc (some cs) idGen
          = Except.ok s' ∧
        s'.choices = s.choices.filter (fun c => !(c.questionId == qid))
          ++ buildChoices qid idGen 0 cs ∧
        (∀ j t, cs[j]? = some t →
          (buildChoices qid idGen 0 cs)[j]?
            = some (⟨idGen j, qid, t, (j : Int) + 1⟩ : Choice)) ∧
        (∀ c ∈ s.choices, c.questionId = qid → ¬ c ∈ s'.choices) ∧
        (∀ c ∈ s.choices, c.questionId = qid →
          ¬ c.id ∈ s'.choices.map (fun c' => c'.id)) := by
  intro s qid text descr isReq mc cs idGen hone hfresh hnodup
  have hcond : ((s.questions.filter (fun q => q.id == qid)).length == 1) = true := by
    simp [hone]
  have heq : updateQuestion s qid text descr isReq mc (some cs) idGen
      = Except.ok
        { s with
            questions := s.questions.map (fun q =>
              if q.id == qid then
                { q with text := text, description := descr,
                         isRequired := isReq, maxChars := mc }
              else q),
            choices := s.choices.filter (fun c => !(c.questionId == qid))
              ++ buildChoices qid idGen 0 cs } := by
    unfold updateQuestion
    rw [hcond]
    rfl
  refine ⟨_, heq, rfl, ?_, ?_, ?_⟩
  · intro j t hj
    have := @buildChoices_getElem qid idGen 0 cs j t hj
    simpa using this
  · intro c hc hcq hmem
    rcases List.mem_append.mp hmem with h1 | h1
    · have := (List.mem_filter.mp h1).2
      simp [hcq] at this
    · obtain ⟨j, _, hid⟩ := mem_buildChoices h1
      exact hfresh j (by
        rw [← hid]
        exact List.mem_map.mpr ⟨c, hc, rfl⟩)
  · intro c hc hcq hmem
    rcases List.mem_map.mp hmem with ⟨c', hc', hid⟩
    rcases List.mem_append.mp hc' with h1 | h1
    · have hcfilter := List.mem_filter.mp h1
      have hceq : c' = c :=
        List.inj_on_of_nodup_map hnodup hcfilter.1 hc hid
      rw [hceq] at hcfilter
      have := hcfilter.2
      simp [hcq] at this
    · obtain ⟨j, _, hjid⟩ := mem_buildChoices h1
      refine hfresh j ?_
      rw [← hjid, hid]
      exact List.mem_map.mpr ⟨c, hc, rfl⟩

def w9State : AppState :=
  ⟨[], [w5Question], [⟨"c-1", "q-1", "Old", 1⟩], [], [], []⟩

/-- Witness for the C9 theorem at a concrete state: one question with one old
choice, replaced by two new texts. -/
theorem updateQuestion_replaces_choices_witness :
    ((w9State.questions.filter (fun q => q.id == "q-1")).length = 1) ∧
    ∃ s', updateQuestion w9State "q-1" "Name?" none true none
        (some ["A", "B"]) (fun _ => "fresh-id") = Except.ok s' ∧
      s'.choices = w9State.choices.filter (fun c => !(c.questionId == "q-1"))
        ++ buildChoices "q-1" (fun _ => "fresh-id") 0 ["A", "B"] := by
  refine ⟨by decide, ?_⟩
  obtain ⟨s', h1, h2, _⟩ := updateQuestion_replaces_choices w9State "q-1" "Name?"
    none true none ["A", "B"] (fun _ => "fresh-id")
    (by decide)
    (fun i => by
      show ¬ "fresh-id" ∈ w9State.choices.map (fun c => c.id)
      decide)
    (by decide)
  exact ⟨s', h1, h2⟩

/-! ## `getQuestionsHierarchy` (formService.js lines 530-591)

The service fetches the form's questions, collects those with a falsy
`parent_id` as roots, and pushes every question with a truthy `parent_id`
onto the children array of the map entry for that id, doing nothing when the
map has no such entry; roots and children lists are then sorted by `order`.
A `parent_id` value is a uuid or null, but the JavaScript truthiness test is
modelled exactly (the empty string is also falsy).  The function never
reports a missing parent as an error: it returns the tree it built. -/

def jsTruthyId (p : Option String) : Bool :=
  match p with
  | none => false
  | some t => !(t == "")

def fetchedQuestions (s : AppState) (fid : String) : List Question :=
  s.questions.filter (fun q => q.formId == fid)

def sortByOrder (l : List Question) : List Question :=
  l.mergeSort (fun a b => a.order ≤ b.order)

/-- The root list returned by `getQuestionsHierarchy`. -/
def hierarchyRoots (s : AppState) (fid : String) : List Question :=
  sortByOrder ((fetchedQuestions s fid).filter (fun q => !(jsTruthyId q.parentId)))

/-- The children array built for a fetched question `p` (the second pass
pushes onto the map entry whose key equals the child's `parent_id`; fetched
question ids are unique in the datastore). -/
def hierarchyChildren (s : AppState) (fid : String) (p : Question) :
    List Question :=
  sortByOrder ((fetchedQuestions s fid).filter
    (fun q => jsTruthyId q.parentId && q.parentId == some p.id))

/-- C10: a fetched question whose `parent_id` is a non-null uuid matching no
fetched question of the form is silently omitted from the hierarchy: it is
neither a root nor in any node's children (and no error is raised — the
functions are total). -/
theorem hierarchy_orphan_omitted :
    ∀ (s : AppState) (fid : String) (q : Question) (pid : String),
      q ∈ fetchedQuestions s fid →
      q.parentId = some pid → ¬ pid = "" →
      (∀ r ∈ fetchedQuestions s fid, ¬ r.id = pid) →
      ¬ q ∈ hierarchyRoots s fid ∧
      ∀ p ∈ fetchedQuestions s fid, ¬ q ∈ hierarchyChildren s fid p := by
  intro s fid q pid hq hpid hne hnomatch
  constructor
  · intro hmem
    unfold hierarchyRoots sortByOrder at hmem
    rw [List.mem_mergeSort] at hmem
    have hpred := (List.mem_filter.mp hmem).2
    rw [hpid] at hpred
    simp only [jsTruthyId] at hpred
    simp only [Bool.not_not, Bool.not_eq_true'] at hpred
    exact hne (by simpa using hpred)
  · intro p hp hmem
    unfold hierarchyChildren sortByOrder at hmem
    rw [List.mem_mergeSort] at hmem
    have hpred := (List.mem_filter.mp hmem).2
    rw [hpid] at hpred
    simp only [Bool.and_eq_true, beq_iff_eq, Option.some.injEq] at hpred
    exact hnomatch p hp (by rw [hpred.2])

def w10Orphan : Question :=
  ⟨"q-2", "form-1", "short-text", "Orphan?", none, false, none, 2, some "gone"⟩

def w10State : AppState :=
  ⟨[], [w5Question, w10Orphan], [], [], [], []⟩

/-- Witness for the C10 theorem: a question whose parent id matches no
fetched question. -/
theorem hierarchy_orphan_omitted_witness :
    ¬ w10Orphan ∈ hierarchyRoots w10State "form-1" ∧
    ∀ p ∈ fetchedQuestions w10State "form-1",
      ¬ w10Orphan ∈ hierarchyChildren w10State "form-1" p :=
  hierarchy_orphan_omitted w10State "form-1" w10Orphan "gone"
    (by decide) rfl (by decide) (by decide)

/-! ## `WorkspaceService.createWorkspace` and the workspaces schema

`database/workspaces.sql` creates `workspaces` with columns id, name, type,
user_id, created_at, updated_at; id, type, created_at and updated_at carry a
DEFAULT.  The migration `20240315_add_workspace_slug.sql` (run by
`migrations/run-migration.js`) then adds a `slug TEXT` column (IF NOT
EXISTS), a unique index on it, backfills existing rows from `name`, and sets
the column NOT NULL; it gives `slug` no DEFAULT.  The service's insert
payload is the object literal `{ name, type, user_id }`, modelled as the
list of column/value pairs; `insertAccepted` models the NOT NULL check the
datastore applies to an insert (every NOT NULL column must be supplied by
the payload or have a DEFAULT). -/

def createWorkspaceRow (name ty userId : String) : List (String × String) :=
  [("name", name), ("type", ty), ("user_id", userId)]

def workspaceBaseColumns : List String :=
  ["id", "name", "type", "user_id", "created_at", "updated_at"]

def workspaceColumnsWithDefault : List String :=
  ["id", "type", "created_at", "updated_at"]

def addWorkspaceSlug (cols : List String) : List String :=
  if "slug" ∈ cols then cols else cols ++ ["slug"]

def workspaceColumns : List String :=
  addWorkspaceSlug workspaceBaseColumns

def workspaceNotNullColumns : List String :=
  ["id", "name", "user_id", "created_at", "updated_at", "slug"]

def insertAccepted (payload : List (String × String)) : Bool :=
  workspaceNotNullColumns.all
    (fun c => c ∈ payload.map Prod.fst || c ∈ workspaceColumnsWithDefault)

/-- C8: the create path generates no slug: for every (name, type, owner) the
insert payload is exactly `name`, `type`, `user_id` and carries no `slug`
column, although the migrated schema has a NOT NULL `slug` column with no
DEFAULT — so after the migration the insert is rejected by the NOT NULL
check and persists nothing, and before it the persisted row carries no slug.
Either way no generated name-derived slug is persisted, diverging from the
specified create contract. -/
theorem createWorkspace_never_generates_slug :
    (∀ (name ty userId : String),
      (createWorkspaceRow name ty userId).map Prod.fst
        = ["name", "type", "user_id"]) ∧
    ¬ "slug" ∈ (createWorkspaceRow "Acme Corp" "private" "user-1").map Prod.fst ∧
    (createWorkspaceRow "Acme Corp" "private" "user-1").lookup "slug" = none ∧
    "slug" ∈ workspaceColumns ∧
    "slug" ∈ workspaceNotNullColumns ∧
    ¬ "slug" ∈ workspaceColumnsWithDefault ∧
    insertAccepted (createWorkspaceRow "Acme Corp" "private" "user-1") = false :=
  ⟨fun _ _ _ => rfl, by decide, by decide, by decide, by decide, by decide,
   by decide⟩

/-! ## C1 and C2: the submission-start paths -/

def w1Completed : Submission :=
  ⟨"sub-1", "form-1", "ada@example.com", SubStatus.completed, 10, some 20,
   some 10, none, none⟩

def w1State : AppState := ⟨[], [], [], [], [w1Completed], []⟩

/-- C1: at a state holding a completed submission for (formId, email), the
service returns the conflict object carrying the row's completion timestamp
and creates no new row, but the controller then answers 201 with that object:
the `Duplicate submission` branch that would produce 409 never fires because
the service returns instead of throwing.  This exhibits the divergence from
the documented 409 behaviour at a concrete input. -/
theorem startSubmission_completed_http201 :
    (controllerStartSubmission w1State "form-1" "ada@example.com" "sub-2" 99
        none none).status = 201 ∧
    ¬ (controllerStartSubmission w1State "form-1" "ada@example.com" "sub-2" 99
        none none).status = 409 ∧
    (controllerStartSubmission w1State "form-1" "ada@example.com" "sub-2" 99
        none none).state = w1State ∧
    (controllerStartSubmission w1State "form-1" "ada@example.com" "sub-2" 99
        none none).result
      = some (StartResult.conflict "sub-1" (some 20) "ada@example.com") := by
  decide

/-- C2: when an in-progress submission row exists for (formId, email), every
`startSubmission` call returns that row unchanged and leaves the datastore
untouched, so two successive calls return the same submission id and change
no stored submission state. -/
theorem startSubmission_inProgress_idempotent :
    ∀ (s : AppState) (fid email : String) (sub : Submission)
      (nid nid' : String) (now now' : Nat) (ua ua' ip ip' : Option String),
      submissionMatches s fid email = [sub] →
      sub.status = SubStatus.inProgress →
      startSubmission s fid email nid now ua ip = (StartResult.row sub, s) ∧
      startSubmission s fid email nid' now' ua' ip' = (StartResult.row sub, s) := by
  intro s fid email sub nid nid' now now' ua ua' ip ip' hmatch hstatus
  have hne : ¬ sub.status = SubStatus.completed := by
    rw [hstatus]
    intro h
    exact absurd h (by decide)
  constructor <;>
    · unfold startSubmission
      rw [hmatch]
      simp only [if_neg hne]

def w2InProgress : Submission :=
  ⟨"sub-7", "form-1", "bo@example.com", SubStatus.inProgress, 10, none, none,
   none, none⟩

def w2State : AppState := ⟨[], [], [], [], [w2InProgress], []⟩

/-- Witness for the C2 theorem at a concrete in-progress state. -/
theorem startSubmission_inProgress_idempotent_witness :
    startSubmission w2State "form-1" "bo@example.com" "n1" 50 none none
      = (StartResult.row w2InProgress, w2State) ∧
    startSubmission w2State "form-1" "bo@example.com" "n2" 60 none none
      = (StartResult.row w2InProgress, w2State) :=
  startSubmission_inProgress_idempotent w2State "form-1" "bo@example.com"
    w2InProgress "n1" "n2" 50 60 none none none none (by decide) rfl

/-! ## C7: the slug function against the specification sentence -/

/-- C7 counterexample: on the input `a_b` the code keeps the underscore and
turns it into a hyphen, while the function literally described by the spec
sentence (strip class `[a-z0-9\s-]`) deletes it, so the description does not
hold for every input. -/
theorem createSlug_underscore_counterexample :
    createSlug "a_b" = "a-b" ∧ describedSlug "a_b" = "ab" ∧
    ¬ createSlug "a_b" = describedSlug "a_b" := by decide

/-- C7 amended: for every input string the slug function lower-cases it,
strips characters outside `[a-z0-9_\s-]` (keeping underscores), collapses
runs of whitespace, underscores and hyphens to a single hyphen, and trims
leading/trailing hyphens; in particular `Q1 Survey!!` slugifies to
`q1-survey`, and the function is idempotent. -/
theorem createSlug_spec_amended :
    (∀ s : String, createSlug s = describedSlugAmended s) ∧
    createSlug "Q1 Survey!!" = "q1-survey" ∧
    ∀ s : String, createSlug (createSlug s) = createSlug s :=
  ⟨createSlug_eq_describedSlugAmended, by decide, createSlug_idem⟩

end Tagform
